import Mathlib

/-!
Verification development for the buttondown CLI sync engine.

Shallow embedding notes:
* JavaScript strings are modelled as `List Char` (`Str`); `charCodeAt` is
  `Char.toNat`, exact for the Basic Multilingual Plane, which covers every
  string the theorems below touch.
* External collaborators (the `yaml` npm package, `JSON.parse`, `node:path`,
  the HTTP client) are not code of this repository; they are modelled either
  as explicit function parameters (path resolution, JSON parsing, the image
  POST endpoint) or as restricted models documented at their definition
  (the YAML codec, restricted to flat maps of plain scalar strings, the only
  shape the verified domain exercises).
* Fallible code (throwing) is modelled with `Except`; JavaScript truthiness
  is modelled explicitly where the source relies on it.
-/

set_option maxHeartbeats 1600000
set_option maxRecDepth 4096

namespace Buttondown

/-- Model of a JavaScript string: a list of UTF-16 code units, here chars. -/
abbrev Str := List Char

/-- Helper for string splitters: prepend a char to the first piece. -/
def headCons (c : Char) : List Str → List Str
  | [] => [[c]]
  | h :: t => (c :: h) :: t

/-- Does the string start with the three-dash frontmatter delimiter? -/
def isTripleHead (s : Str) : Bool :=
  match s with
  | a :: b :: c :: _ => a = '-' && b = '-' && c = '-'
  | _ => false

/-- Model of JavaScript `content.split("---")`: split on every
non-overlapping leftmost occurrence of the three-dash delimiter. -/
def splitDashes : Str → List Str
  | [] => [[]]
  | [a] => [[a]]
  | [a, b] => [[a, b]]
  | a :: b :: c :: rest =>
    if a = '-' ∧ b = '-' ∧ c = '-' then [] :: splitDashes rest
    else headCons a (splitDashes (b :: c :: rest))

/-- Does the string contain the three-dash delimiter anywhere? -/
def hasTriple : Str → Bool
  | a :: b :: c :: rest => (a = '-' && b = '-' && c = '-') || hasTriple (b :: c :: rest)
  | _ => false

/-- Model of the whitespace class JavaScript `trim` removes, restricted to
the whitespace characters the program can produce. -/
def isWs (c : Char) : Bool := c = ' ' || c = '\n' || c = '\t' || c = '\r'

/-- Model of JavaScript `String.prototype.trim`. -/
def jsTrim (s : Str) : Str :=
  ((s.dropWhile isWs).reverse.dropWhile isWs).reverse

/-- Model of JavaScript `s.replace(pat, repl)` with a string pattern:
replaces only the first occurrence, returns `s` unchanged if absent. -/
def replaceFirst (pat repl : Str) : Str → Str
  | [] => []
  | c :: rest =>
    if pat.isPrefixOf (c :: rest) then repl ++ (c :: rest).drop pat.length
    else c :: replaceFirst pat repl rest

/-- Model of JavaScript `s.split("\n")`. -/
def splitLines : Str → List Str
  | [] => [[]]
  | c :: rest =>
    if c = '\n' then [] :: splitLines rest
    else headCons c (splitLines rest)

/-- Join lines with newline separators (no trailing newline). -/
def joinNl : List Str → Str
  | [] => []
  | [l] => l
  | l :: l2 :: ls => l ++ '\n' :: joinNl (l2 :: ls)

/-- Split a line at the first `": "` occurrence, the shape the modelled YAML
printer emits for flat maps of scalar strings. -/
def splitKeyVal : Str → Option (Str × Str)
  | [] => none
  | c :: rest =>
    if c = ':' ∧ rest.head? = some ' ' then some ([], rest.drop 1)
    else (splitKeyVal rest).map (fun kv => (c :: kv.1, kv.2))

/-- Model of JavaScript `fields.join("|")` on an array of strings. -/
def joinBar : List Str → Str
  | [] => []
  | [x] => x
  | x :: y :: xs => x ++ '|' :: joinBar (y :: xs)

/-- Model of JavaScript ToInt32: wrap an integer into the signed 32-bit range. -/
def toInt32 (n : Int) : Int := ((n + 2147483648) % 4294967296) - 2147483648

/-- One step of the rolling hash from `src/unnamed/part_007` (`utils.ts`):
`iterator = (iterator << 5) - iterator + char; iterator &= iterator`. -/
def hashStep (h : Int) (c : Char) : Int := toInt32 (toInt32 (h * 32) - h + c.toNat)

/-- The rolling 32-bit hash loop over a joined string. -/
def jsHash (s : Str) : Int := s.foldl hashStep 0

/-- Model of JavaScript `Number.prototype.toString` on a 32-bit integer. -/
def intToStr (n : Int) : Str := (toString n).data

/-- Translation of `hash` in `src/unnamed/part_007` (imported by the email
codec as `genericHash`): join the fields with a bar and hash the result. -/
def genericHash (fields : List Str) : Str := intToStr (jsHash (joinBar fields))

/-- Model of JavaScript `toLowerCase` (ASCII, sufficient for extensions). -/
def strToLower (s : Str) : Str := s.map Char.toLower

/-- Model of `node:path` `basename` for POSIX paths. -/
def basename (p : Str) : Str := (p.reverse.takeWhile (fun c => c ≠ '/')).reverse

/-- Model of `node:path` `extname`: the suffix from the last dot of the
basename, empty when there is no dot or the only dot is the leading one. -/
def extname (p : Str) : Str :=
  let b := basename p
  let afterDotRev := b.reverse.takeWhile (fun c => c ≠ '.')
  if afterDotRev.length + 1 < b.length then '.' :: afterDotRev.reverse else []

/-! Email codec of `src/src/lib/serde/email.ts` / `src/src/sync/index.ts`
(the `emails.ts` revision with the `parts.length < 3` guard). Frontmatter
values are dynamically typed in the source; `Val` covers the value shapes
the codec manipulates. -/

/-- Dynamically typed frontmatter value: string, string list, boolean,
flat string map, or the shape of the `filters` default object. -/
inductive Val where
  | s (v : Str)
  | list (vs : List Str)
  | b (bv : Bool)
  | omap (kvs : List (Str × Str))
  | filtersObj (fs gs : List Str) (pred : Str)
deriving DecidableEq, Repr

/-- Model of JavaScript truthiness on a frontmatter value: the empty string
and `false` are falsy, every array and object is truthy. -/
def truthyVal : Val → Bool
  | .s v => v ≠ []
  | .b bv => bv
  | _ => true

/-- JSON string escaping of quote and backslash (the only escapes the
verified strings can need). -/
def jsonEscape (v : Str) : Str :=
  v.flatMap (fun c => if c = '"' ∨ c = '\\' then ['\\', c] else [c])

/-- A JSON string literal. -/
def jsonQuote (v : Str) : Str := '"' :: jsonEscape v ++ ['"']

/-- Model of `JSON.stringify` on a frontmatter value. -/
def jsonStr : Val → Str
  | .s v => jsonQuote v
  | .list vs => '[' :: joinComma (vs.map jsonQuote) ++ [']']
  | .b true => "true".data
  | .b false => "false".data
  | .omap kvs =>
    '\x7b' :: joinComma (kvs.map (fun kv => jsonQuote kv.1 ++ ':' :: jsonQuote kv.2)) ++ ['\x7d']
  | .filtersObj fs gs pred =>
    "\x7b\"filters\":[".data ++ joinComma (fs.map jsonQuote) ++
    "],\"groups\":[".data ++ joinComma (gs.map jsonQuote) ++
    "],\"predicate\":".data ++ jsonQuote pred ++ ['\x7d']
where
  joinComma : List Str → Str
    | [] => []
    | [x] => x
    | x :: y :: xs => x ++ ',' :: joinComma (y :: xs)

/-- Model of JavaScript `String(value)` as used by `Array.prototype.join`. -/
def valToString : Val → Str
  | .s v => v
  | .list vs => goJoin vs
  | .b true => "true".data
  | .b false => "false".data
  | .omap _ => "[object Object]".data
  | .filtersObj _ _ _ => "[object Object]".data
where
  goJoin : List Str → Str
    | [] => []
    | [x] => x
    | x :: y :: xs => x ++ ',' :: goJoin (y :: xs)

/-- The in-memory email record (`Partial<Email & FrontMatterFields>`):
every frontmatter field is optional and dynamically typed; `body` is the
free-text field and `attachments` the array field parsed outside the
frontmatter allow-list loop. -/
structure Email where
  id : Option Val := none
  subject : Option Val := none
  email_type : Option Val := none
  status : Option Val := none
  metadata : Option Val := none
  slug : Option Val := none
  publish_date : Option Val := none
  description : Option Val := none
  image : Option Val := none
  canonical_url : Option Val := none
  secondary_id : Option Val := none
  filters : Option Val := none
  commenting_mode : Option Val := none
  related_email_ids : Option Val := none
  featured : Option Val := none
  body : Option Str := none
  attachments : Option (List Str) := none
deriving DecidableEq, Repr

/-- The frontmatter field allow-list, in source order. -/
def FRONT_MATTER_FIELDS : List String :=
  ["id", "subject", "email_type", "status", "metadata", "slug",
   "publish_date", "description", "image", "canonical_url", "secondary_id",
   "filters", "commenting_mode", "related_email_ids", "featured"]

/-- The per-field defaults (`FRONT_MATTER_FIELD_TO_DEFAULT_VALUE`). -/
def FRONT_MATTER_FIELD_TO_DEFAULT_VALUE : List (String × Val) :=
  [("email_type", .s "public".data),
   ("featured", .b false),
   ("commenting_mode", .s "enabled".data),
   ("filters", .filtersObj [] [] "and".data),
   ("related_email_ids", .list [])]

/-- Dynamic field read (`email[field]`) for the allow-listed fields. -/
def getField (e : Email) (k : String) : Option Val :=
  if k = "id" then e.id
  else if k = "subject" then e.subject
  else if k = "email_type" then e.email_type
  else if k = "status" then e.status
  else if k = "metadata" then e.metadata
  else if k = "slug" then e.slug
  else if k = "publish_date" then e.publish_date
  else if k = "description" then e.description
  else if k = "image" then e.image
  else if k = "canonical_url" then e.canonical_url
  else if k = "secondary_id" then e.secondary_id
  else if k = "filters" then e.filters
  else if k = "commenting_mode" then e.commenting_mode
  else if k = "related_email_ids" then e.related_email_ids
  else if k = "featured" then e.featured
  else none

/-- Dynamic field write (`email[field] = v`) for the allow-listed fields. -/
def setField (e : Email) (k : String) (v : Val) : Email :=
  if k = "id" then { e with id := some v }
  else if k = "subject" then { e with subject := some v }
  else if k = "email_type" then { e with email_type := some v }
  else if k = "status" then { e with status := some v }
  else if k = "metadata" then { e with metadata := some v }
  else if k = "slug" then { e with slug := some v }
  else if k = "publish_date" then { e with publish_date := some v }
  else if k = "description" then { e with description := some v }
  else if k = "image" then { e with image := some v }
  else if k = "canonical_url" then { e with canonical_url := some v }
  else if k = "secondary_id" then { e with secondary_id := some v }
  else if k = "filters" then { e with filters := some v }
  else if k = "commenting_mode" then { e with commenting_mode := some v }
  else if k = "related_email_ids" then { e with related_email_ids := some v }
  else if k = "featured" then { e with featured := some v }
  else e

/-- `Object.entries(rest)` for a deserialize-shaped record: the frontmatter
fields in allow-list order, then `attachments` (present keys only appear
when the field is set; `body` was destructured away). -/
def rawEntries (e : Email) : List (String × Option Val) :=
  [("id", e.id), ("subject", e.subject), ("email_type", e.email_type),
   ("status", e.status), ("metadata", e.metadata), ("slug", e.slug),
   ("publish_date", e.publish_date), ("description", e.description),
   ("image", e.image), ("canonical_url", e.canonical_url),
   ("secondary_id", e.secondary_id), ("filters", e.filters),
   ("commenting_mode", e.commenting_mode),
   ("related_email_ids", e.related_email_ids), ("featured", e.featured),
   ("attachments", e.attachments.map Val.list)]

/-- The serializer's entry filter: drop empty strings, empty objects and
arrays, non-allow-listed keys, and values JSON-equal to the field default.
Absent (`none`) values never reach this filter. -/
def keepEntry (k : String) (v : Val) : Bool :=
  (v ≠ Val.s []) &&
  (jsonStr v ≠ "\x7b\x7d".data) &&
  (jsonStr v ≠ "[]".data) &&
  FRONT_MATTER_FIELDS.contains k &&
  (match List.lookup k FRONT_MATTER_FIELD_TO_DEFAULT_VALUE with
   | none => true
   | some d => jsonStr v ≠ jsonStr d)

/-- The filtered, ordered frontmatter entries the serializer emits. -/
def serializeEntries (e : Email) : List (String × Val) :=
  (rawEntries e).filterMap
    (fun kv => kv.2.bind (fun v => if keepEntry kv.1 v then some (kv.1, v) else none))

/-- Model of the external `yaml` package's scalar rendering, restricted to
the flat maps of plain scalar strings the verified domain exercises;
non-scalar values are rendered in JSON flow style, a simplification of the
library's block style no theorem below depends on. -/
def renderYamlVal : Val → Str
  | .s v => v
  | other => jsonStr other

/-- One emitted YAML line, `key: value`. -/
def renderLine (kv : String × Val) : Str :=
  kv.1.data ++ west ++ renderYamlVal kv.2
where west : Str := [':', ' ']

/-- Model of `stringifyYAML(restObject, indent 2)` for flat maps: one line
per entry each ending in a newline; the empty map renders as the flow
document the library emits. -/
def stringifyYAML (entries : List (String × Val)) : Str :=
  if entries = [] then "\x7b\x7d\n".data
  else entries.flatMap (fun kv => renderLine kv ++ ['\n'])

/-- The `yamlContent.endsWith("\n") ? yamlContent.slice(0, -1) : ...` step. -/
def stripTrailingNewline (s : Str) : Str :=
  if s.getLast? = some '\n' then s.dropLast else s

/-- Does a line match `^(\S+):$` (an all-non-space key ending in a colon)? -/
def endsColonNonSpace (l : Str) : Bool :=
  match l.getLast? with
  | some c => c = ':' && l.dropLast ≠ [] && l.dropLast.all (fun ch => ¬ isWs ch)
  | none => false

/-- Does the following line begin with the two-space or tab indent the
nested-key fixup regex looks for? -/
def startsIndent (l : Str) : Bool :=
  match l with
  | ' ' :: ' ' :: _ => true
  | '\t' :: _ => true
  | _ => false

/-- Model of the `^(\S+):(\n(?:  |\t))` → `$1: $2` fixup: append a space to
every key-only line that is followed by an indented line. -/
def fixNested (s : Str) : Str :=
  joinNl (go (splitLines s))
where
  go : List Str → List Str
    | [] => []
    | [l] => [l]
    | l :: l2 :: ls =>
      (if endsColonNonSpace l && startsIndent l2 then l ++ [' '] else l) :: go (l2 :: ls)

/-- The editor-mode marker comment stripped from bodies on serialize. -/
def MARKDOWN_MODE_SIGIL : Str := "<!-- buttondown-editor-mode: plaintext -->".data

/-- Translation of `serialize` (`src/src/lib/serde/email.ts` lines 112-143):
filter the frontmatter entries, render them as YAML, strip the trailing
newline, apply the nested-key fixup, and emit the delimited document. An
absent body renders as the text `undefined`, as JavaScript template-string
interpolation does. -/
def serialize (email : Email) : Str :=
  let cleanedBody := email.body.map (replaceFirst MARKDOWN_MODE_SIGIL [])
  let yamlContent := stringifyYAML (serializeEntries email)
  let yamlContent := stripTrailingNewline yamlContent
  let yamlContent := fixNested yamlContent
  "---\n".data ++ yamlContent ++ "\n---\n\n".data ++ cleanedBody.getD "undefined".data

/-- Model of the external `yaml` package's parser, restricted to the flat
maps of plain scalar strings the serializer model emits: each `key: value`
line becomes a string entry, every other line is ignored. -/
def parseYAML (s : Str) : List (String × Val) :=
  (splitLines s).filterMap
    (fun l => (splitKeyVal l).map (fun kv => (String.mk kv.1, Val.s kv.2)))

/-- The textual bullet-list fallback for `attachments`: split on newlines,
trim, strip a leading `"- "`, and drop empty lines. -/
def parseBulletLines (s : Str) : List Str :=
  ((splitLines s).map (fun l => stripDashSpace (jsTrim l))).filter (fun l => l ≠ [])
where
  stripDashSpace : Str → Str
    | '-' :: ' ' :: rest => rest
    | l => l

/-- One step of the `for (const field of FRONT_MATTER_FIELDS)` loop:
assign the parsed value when it is present and truthy. -/
def applyField (m : List (String × Val)) (e : Email) (field : String) : Email :=
  match List.lookup field m with
  | some v => if truthyVal v then setField e field v else e
  | none => e

/-- The value a frontmatter field holds after the copy loop: the parsed
value when present and truthy, the prior value otherwise. -/
def mergeF (m : List (String × Val)) (k : String) (old : Option Val) : Option Val :=
  match List.lookup k m with
  | some v => if truthyVal v then some v else old
  | none => old

/-- Result shape of `deserialize`. -/
structure DeserializeResult where
  email : Email
  isValid : Bool
  error : Option String := none
deriving DecidableEq, Repr

/-- Translation of `deserialize` (`src/src/sync/index.ts` lines 110-155):
split on the three-dash delimiter, fail when fewer than three parts or the
frontmatter parses to no keys, otherwise trim the third part as body, copy
the truthy allow-listed fields, and apply the attachments fallbacks. -/
def deserialize (content : Str) : DeserializeResult :=
  let parts := splitDashes content
  if parts.length < 3 then
    ⟨{ body := some content }, false, some "Invalid format (missing frontmatter)"⟩
  else
    let frontmatter := parts.getD 1 []
    let bodyPart := parts.getD 2 []
    let parsedYAML := parseYAML frontmatter
    if parsedYAML.length = 0 then
      ⟨{ body := some content }, false, some "Invalid format (missing frontmatter)"⟩
    else
      let e0 : Email := { body := some (jsTrim bodyPart) }
      let e1 := FRONT_MATTER_FIELDS.foldl (applyField parsedYAML) e0
      let e2 :=
        match List.lookup "attachments" parsedYAML with
        | some v =>
          if truthyVal v then
            match v with
            | .s str => { e1 with attachments := some (parseBulletLines str) }
            | .list vs => { e1 with attachments := some vs }
            | _ => e1
          else e1
        | none => e1
      ⟨e2, true, none⟩

/-- JavaScript `x || ""` coalescing of a frontmatter field into a string. -/
def coalesceStr (o : Option Val) : Str :=
  match o with
  | none => []
  | some v => if truthyVal v then valToString v else []

/-- The ordered fingerprint field list of `hash`
(`src/src/lib/serde/email.ts` lines 147-158). -/
def fingerprintFields (e : Email) : List Str :=
  [e.body.getD [], coalesceStr e.status, coalesceStr e.email_type,
   coalesceStr e.slug, coalesceStr e.publish_date, coalesceStr e.description,
   coalesceStr e.image, jsonStr (Val.list (e.attachments.getD []))]

/-- The bar-joined string `genericHash` hashes for an email. -/
def hashInput (e : Email) : Str := joinBar (fingerprintFields e)

/-- Translation of `hash` in `src/src/lib/serde/email.ts`: `genericHash`
over the fingerprint allow-list. -/
def emailHash (e : Email) : Str := genericHash (fingerprintFields e)

/-! Image reference scanning and resolution. The source scans with the
regexes `!\[([^\]]*)\]\(([^)]+)\)` and `!\[([^\]]*)\]\((https?:\/\/[^)]+)\)`
(global flag): at each position the engine attempts a match; on success it
continues after the match, on failure it advances one character. -/

/-- One relative image reference found in body text. -/
structure RelativeImageReference where
  matchText : Str
  altText : Str
  relativePath : Str
deriving DecidableEq, Repr

/-- Rebuild the matched text `![alt](inner)`. -/
def refText (alt inner : Str) : Str :=
  "![".data ++ alt ++ "](".data ++ inner ++ ")".data

/-- One match attempt of `!\[([^\]]*)\]\(([^)]+)\)` at the head of the
string: on success, the alt text, the parenthesised path (nonempty, free of
the closing parenthesis) and the remainder after the match. The greedy
character classes become `takeWhile`; the mandatory `]`, `(` and `)` become
the guards. -/
def parseRefCore (s : Str) : Option (Str × Str × Str) :=
  match s with
  | a :: b :: rest =>
    if a = '!' ∧ b = '[' then
      let alt := rest.takeWhile (fun c => c ≠ ']')
      let r2 := rest.dropWhile (fun c => c ≠ ']')
      if (r2.drop 1).head? = some '(' then
        let rest3 := r2.drop 2
        let inner := rest3.takeWhile (fun c => c ≠ ')')
        let r4 := rest3.dropWhile (fun c => c ≠ ')')
        if inner ≠ [] ∧ r4 ≠ [] then some (alt, inner, r4.drop 1) else none
      else none
    else none
  | _ => none

/-- The `[^)]+\)` step of the absolute-URL regex after a recognised scheme
`pre`: at least one further character up to the mandatory `)`. -/
def parseAfterScheme (alt pre t : Str) : Option (Str × Str × Str) :=
  let tail := t.takeWhile (fun c => c ≠ ')')
  let r4 := t.dropWhile (fun c => c ≠ ')')
  if tail ≠ [] ∧ r4 ≠ [] then some (alt, pre ++ tail, r4.drop 1) else none

/-- The `https?:\/\/` alternative of the absolute-URL regex. -/
def parseUrlTail (alt rest3 : Str) : Option (Str × Str × Str) :=
  if "https://".data.isPrefixOf rest3 then
    parseAfterScheme alt "https://".data (rest3.drop 8)
  else if "http://".data.isPrefixOf rest3 then
    parseAfterScheme alt "http://".data (rest3.drop 7)
  else none

/-- One match attempt of the absolute-URL image regex
`!\[([^\]]*)\]\((https?:\/\/[^)]+)\)` at the head of the string: the
parenthesised text must start with `http://` or `https://` followed by at
least one character before the closing parenthesis. -/
def parseAbsRef (s : Str) : Option (Str × Str × Str) :=
  match s with
  | a :: b :: rest =>
    if a = '!' ∧ b = '[' then
      let alt := rest.takeWhile (fun c => c ≠ ']')
      let r2 := rest.dropWhile (fun c => c ≠ ']')
      if (r2.drop 1).head? = some '(' then parseUrlTail alt (r2.drop 2)
      else none
    else none
  | _ => none

/-- Is the path absolute in the finder's sense (`http` or `//` prefixed)? -/
def isAbsolutePath (p : Str) : Bool :=
  "http".data.isPrefixOf p || "//".data.isPrefixOf p

/-- The scan loop of `findRelativeImageReferences`, fuelled by the input
length (the engine advances at least one character per step). -/
def findRefsGo : Nat → Str → List RelativeImageReference
  | 0, _ => []
  | _, [] => []
  | fuel + 1, c :: rest =>
    match parseRefCore (c :: rest) with
    | some (alt, path, rest5) =>
      (if isAbsolutePath path then [] else [⟨refText alt path, alt, path⟩]) ++
      findRefsGo fuel rest5
    | none => findRefsGo fuel rest

/-- Translation of `findRelativeImageReferences`
(`src/src/sync/index.ts` lines 199-219). -/
def findRelativeImageReferences (content : Str) : List RelativeImageReference :=
  findRefsGo content.length content

/-- The absolute-URL references the replacement regex of
`convertAbsoluteToRelativeImages` matches, as (alt, url) pairs. -/
def absRefsGo : Nat → Str → List (Str × Str)
  | 0, _ => []
  | _, [] => []
  | fuel + 1, c :: rest =>
    match parseAbsRef (c :: rest) with
    | some (alt, url, rest5) => (alt, url) :: absRefsGo fuel rest5
    | none => absRefsGo fuel rest

/-- All absolute-URL image references of a body text. -/
def absRefs (content : Str) : List (Str × Str) := absRefsGo content.length content

/-- Translation of `replaceImageReference`
(`src/src/lib/serde/email.ts` lines 189-197): first-occurrence replace. -/
def replaceImageReference (content originalReference newUrl altText : Str) : Str :=
  replaceFirst originalReference (refText altText newUrl) content

/-- One persisted synced-image entry (`src/src/sync/state.ts`). -/
structure SyncedImage where
  id : Str
  localPath : Str
  url : Str
  filename : Str
deriving DecidableEq, Repr

/-- The keyed `syncedImages` object, in insertion order. -/
abbrev Images := List (Str × SyncedImage)

/-- `Object.values` of the keyed object. -/
def objValues (m : Images) : List SyncedImage := m.map Prod.snd

/-- `syncedImages[k] = v`: replace in place when the key exists, else
append (JavaScript object key-assignment order). -/
def objInsert (m : Images) (k : Str) (v : SyncedImage) : Images :=
  if m.any (fun kv => kv.1 = k) then m.map (fun kv => if kv.1 = k then (k, v) else kv)
  else m ++ [(k, v)]

/-- The localPath/url pairs `performPush` builds from the synced images. -/
structure ImageMapEntry where
  localPath : Str
  url : Str
deriving DecidableEq, Repr

/-- Modelled from the spec: `resolveRelativeImageReferences` is exported by
the `emails.ts` revision that is absent from `src/` (only its tests in
`src/unnamed/part_009` and its caller `src/src/commands/push.tsx` are
present). Per §4.3: for every relative reference, resolve it against the
base directory, look it up in the image map by absolute local path; if
found substitute the mapped URL, otherwise leave the reference untouched.
`resolve` models `node:path` `path.resolve`. -/
def resolveRelativeImageReferences (resolve : Str → Str → Str) (content emailDir : Str)
    (imageMap : List (Str × ImageMapEntry)) : Str :=
  (findRelativeImageReferences content).foldl
    (fun acc ref =>
      let absolutePath := resolve emailDir ref.relativePath
      match (imageMap.map Prod.snd).find? (fun img => img.localPath = absolutePath) with
      | some img => replaceImageReference acc ref.matchText img.url ref.altText
      | none => acc)
    content

/-- The replacement loop of `convertAbsoluteToRelativeImages`, fuelled by
the input length. -/
def convertAbsGo (relative : Str → Str → Str) (emailDir : Str)
    (syncedImages : Images) : Nat → Str → Str
  | 0, s => s
  | _, [] => []
  | fuel + 1, c :: rest =>
    match parseAbsRef (c :: rest) with
    | some (alt, url, rest5) =>
      (match (objValues syncedImages).find? (fun img => img.url = url) with
       | some img => refText alt (relative emailDir img.localPath)
       | none => refText alt url) ++
      convertAbsGo relative emailDir syncedImages fuel rest5
    | none => c :: convertAbsGo relative emailDir syncedImages fuel rest

/-- Translation of `convertAbsoluteToRelativeImages`
(`src/src/sync.ts` lines 308-336): rewrite every synced absolute image URL
to a relative path, leave unknown URLs as they are. `relative` models
`node:path` `path.relative`. -/
def convertAbsoluteToRelativeImages (relative : Str → Str → Str)
    (content emailDir : Str) (syncedImages : Images) : Str :=
  convertAbsGo relative emailDir syncedImages content.length content

/-- Upload identity returned by the image endpoint. -/
structure UploadInfo where
  id : Str
  url : Str
  filename : Str
deriving DecidableEq, Repr

/-- Translation of `processRelativeImages` (`src/src/sync.ts` lines
231-305): per reference, resolve the path; skip missing files; reuse an
existing synced entry; otherwise upload, keeping the original relative
reference when the upload throws. `pathExists` models `fs.pathExists` and
`uploader` the `uploadImage` method including its throw. -/
def processRelativeImages (resolve : Str → Str → Str) (pathExists : Str → Bool)
    (uploader : Str → Except Str UploadInfo) (content emailDir : Str)
    (syncedImages : Images) : Str × List SyncedImage :=
  (findRelativeImageReferences content).foldl
    (fun acc imageRef =>
      let absolutePath := resolve emailDir imageRef.relativePath
      if pathExists absolutePath then
        match (objValues syncedImages).find? (fun img => img.localPath = absolutePath) with
        | some existingImage =>
          (replaceImageReference acc.1 imageRef.matchText existingImage.url imageRef.altText,
           acc.2)
        | none =>
          match uploader absolutePath with
          | .ok up =>
            (replaceImageReference acc.1 imageRef.matchText up.url imageRef.altText,
             acc.2 ++ [⟨up.id, absolutePath, up.url, up.filename⟩])
          | .error _ => acc
      else acc)
    (content, [])

/-! Image upload (`src/src/sync/index.ts` lines 418-456) and the legacy
MIME helper (`src/src/sync.ts` lines 215-228). -/

/-- The fixed extension-to-MIME table of `uploadImage`. -/
def EXTENSION_TO_MIME : List (Str × String) :=
  [(".gif".data, "image/gif"), (".jpeg".data, "image/jpeg"),
   (".jpg".data, "image/jpeg"), (".png".data, "image/png"),
   (".svg".data, "image/svg+xml"), (".webp".data, "image/webp")]

/-- The upload request the client sends: content type and filename. -/
structure UploadRequest where
  mimeType : String
  filename : Str
deriving DecidableEq, Repr

/-- The response fields `uploadImage` reads. -/
structure ImagePostData where
  id : Str
  image : Str
deriving DecidableEq, Repr

/-- Translation of `uploadImage` (`src/src/sync/index.ts` lines 427-456):
content type from the extension table with `application/octet-stream` as
fallback, POST the image, and throw only when the response carries an
error. `post` models the HTTP client call. -/
def uploadImage (post : UploadRequest → Except Str ImagePostData) (imagePath : Str) :
    Except Str UploadInfo :=
  let filename := basename imagePath
  let ext := strToLower (extname imagePath)
  let mimeType := (List.lookup ext EXTENSION_TO_MIME).getD "application/octet-stream"
  match post ⟨mimeType, filename⟩ with
  | .error _ => .error ("Failed to upload image ".data ++ filename)
  | .ok d => .ok ⟨d.id, d.image, filename⟩

/-- The legacy extension table of `getMimeType` (`src/src/sync.ts`). -/
def LEGACY_MIME_TYPES : List (Str × String) :=
  [(".jpg".data, "image/jpeg"), (".jpeg".data, "image/jpeg"),
   (".png".data, "image/png"), (".gif".data, "image/gif"),
   (".webp".data, "image/webp"), (".svg".data, "image/svg+xml"),
   (".bmp".data, "image/bmp"), (".ico".data, "image/x-icon")]

/-- Translation of `getMimeType` (`src/src/sync.ts` lines 215-228). -/
def getMimeType (filename : Str) : String :=
  (List.lookup (strToLower (extname filename)) LEGACY_MIME_TYPES).getD
    "application/octet-stream"

/-! Sync state store (`src/src/sync/state.ts`) modelled at the level of the
JSON document, plus the push orchestrator (`src/src/commands/push.tsx`). -/

/-- A JSON value, for the on-disk `.buttondown.json` document. -/
inductive Json where
  | null
  | bool (b : Bool)
  | num (n : Int)
  | str (s : Str)
  | arr (elems : List Json)
  | obj (fields : List (String × Json))

/-- The default empty state `DEFAULT_STATE = { syncedImages: {} }`. -/
def DEFAULT_STATE : List (String × Json) := [("syncedImages", .obj [])]

/-- JavaScript object spread `{ ...a, ...b }`: the keys of `a` in order with
`b`'s values winning, then the keys of `b` absent from `a`. -/
def spreadMerge (a b : List (String × Json)) : List (String × Json) :=
  a.map (fun kv => (kv.1, (List.lookup kv.1 b).getD kv.2)) ++
  b.filter (fun kv => (List.lookup kv.1 a).isNone)

/-- The string-keyed fields spreading a parsed JSON value contributes.
Spreading a primitive contributes nothing; spreading a string or array
contributes only numeric index keys, which never collide with the state
keys, so they are omitted from the model. -/
def jsonSpreadFields : Json → List (String × Json)
  | .obj kvs => kvs
  | _ => []

/-- Translation of `readSyncState` (`src/src/sync/state.ts` lines 19-27):
read the file and merge the parsed document over the defaults, falling back
to the defaults when the file is absent or parsing throws. `parse` models
the external `JSON.parse`. -/
def readSyncState (parse : Str → Except Str Json) (file : Option Str) :
    List (String × Json) :=
  match file with
  | none => DEFAULT_STATE
  | some content =>
    match parse content with
    | .ok j => spreadMerge DEFAULT_STATE (jsonSpreadFields j)
    | .error _ => DEFAULT_STATE

/-- The JSON document of one synced image entry. -/
def syncedImageJson (img : SyncedImage) : Json :=
  .obj [("id", .str img.id), ("localPath", .str img.localPath),
        ("url", .str img.url), ("filename", .str img.filename)]

/-- The JSON document `writeSyncState` (`src/src/sync/state.ts` lines
29-35) writes for the state object `performPush` passes, the literal
`{ syncedImages }`: exactly one top-level key. -/
def writeSyncStateObj (syncedImages : Images) : List (String × Json) :=
  [("syncedImages",
    .obj (syncedImages.map (fun kv => (String.mk kv.1, syncedImageJson kv.2))))]

/-- Per resource-group operation tally, as returned by the cited
`REMOTE_EMAILS_RESOURCE.set` / `REMOTE_SNIPPETS_RESOURCE.set` revisions
(`{ updated, created, deleted, failed }`). -/
structure OperationResult where
  updated : Nat
  created : Nat
  deleted : Nat
  failed : Nat
deriving DecidableEq, Repr

/-- JavaScript `x || d` on an optional frontmatter value. -/
def jsOr (o : Option Val) (d : Val) : Val :=
  match o with
  | some v => if truthyVal v then v else d
  | none => d

/-- Truthiness of a record's `id` field. -/
def idTruthy (e : Email) : Bool :=
  match e.id with
  | some v => truthyVal v
  | none => false

/-- One API call issued by `REMOTE_EMAILS_RESOURCE.set`. -/
inductive EmailCall where
  | patch (id : Option Val) (body : Email)
  | post (body : Email)
deriving DecidableEq, Repr

/-- The call `REMOTE_EMAILS_RESOURCE.set` issues for one record. -/
def emailCallFor (email : Email) : EmailCall :=
  if idTruthy email then .patch email.id email
  else .post { email with subject := some (jsOr email.subject (.s [])) }

/-- Translation of `REMOTE_EMAILS_RESOURCE.set` (`src/src/sync/index.ts`
lines 249-274): per record, PATCH when the id is truthy (counted as
updated), otherwise POST with a defaulted subject (counted as created). -/
def REMOTE_EMAILS_RESOURCE_set : List Email → List EmailCall × OperationResult
  | [] => ([], ⟨0, 0, 0, 0⟩)
  | email :: rest =>
    let (calls, r) := REMOTE_EMAILS_RESOURCE_set rest
    if idTruthy email then (.patch email.id email :: calls, { r with updated := r.updated + 1 })
    else (.post { email with subject := some (jsOr email.subject (.s [])) } :: calls,
          { r with created := r.created + 1 })

/-- The in-memory snippet record (the fields `snippets.ts` manipulates). -/
structure Snippet where
  id : Option Val := none
  name : Option Val := none
  identifier : Option Val := none
  content : Option Val := none
deriving DecidableEq, Repr

/-- Truthiness of a snippet's `id` field. -/
def snippetIdTruthy (s : Snippet) : Bool :=
  match s.id with
  | some v => truthyVal v
  | none => false

/-- One API call issued by `REMOTE_SNIPPETS_RESOURCE.set`. -/
inductive SnippetCall where
  | patch (id : Option Val) (body : Snippet)
  | post (identifier name content : Val)
deriving DecidableEq, Repr

/-- The call `REMOTE_SNIPPETS_RESOURCE.set` issues for one record. -/
def snippetCallFor (s : Snippet) : SnippetCall :=
  if snippetIdTruthy s then .patch s.id s
  else .post (jsOr s.identifier (.s [])) (jsOr s.name (.s [])) (jsOr s.content (.s []))

/-- Translation of `REMOTE_SNIPPETS_RESOURCE.set` (`src/src/sync/snippets.ts`
lines 106-135). -/
def REMOTE_SNIPPETS_RESOURCE_set : List Snippet → List SnippetCall × OperationResult
  | [] => ([], ⟨0, 0, 0, 0⟩)
  | s :: rest =>
    let (calls, r) := REMOTE_SNIPPETS_RESOURCE_set rest
    if snippetIdTruthy s then (.patch s.id s :: calls, { r with updated := r.updated + 1 })
    else (.post (jsOr s.identifier (.s [])) (jsOr s.name (.s [])) (jsOr s.content (.s []))
            :: calls,
          { r with created := r.created + 1 })

/-! The push orchestrator, `performPush` in `src/src/commands/push.tsx`
(lines 85-191). Network, filesystem and `node:path` are collaborators and
enter as explicit data/functions in `PushEnv`. -/

/-- Everything one push run reads from its collaborators. -/
structure PushEnv where
  /-- `readSyncState(...).syncedImages`, after the object spread copy. -/
  syncedImages0 : Images
  /-- `LOCAL_EMAILS_RESOURCE.get` result (`null` when falsy). -/
  localEmails : Option (List Email)
  /-- `REMOTE_EMAILS_RESOURCE.get` result. -/
  remoteEmails : List Email
  /-- `path.join(configuration.directory, "emails")`. -/
  emailsDir : Str
  /-- Models `uploadImage(configuration, path)` including its throw. -/
  uploader : Str → Except Str UploadInfo
  /-- Models `node:path` `path.resolve`. -/
  resolve : Str → Str → Str
  /-- Models the `BASE_RESOURCES` loop (the list itself is absent from
  `src/`): per resource, its name and — when `local.get` returned truthy
  data — the result of `remote.set`. -/
  baseRuns : List (String × Option OperationResult)

/-- The upload loop over one email's references (steps inside `performPush`
step 3): resolve each path, skip when a synced entry already has that
localPath, otherwise issue the upload (logged) and key the new entry by the
returned id. An upload failure propagates as the thrown error. -/
def uploadOverRefs (uploader : Str → Except Str UploadInfo) (resolve : Str → Str → Str)
    (emailsDir : Str) : List RelativeImageReference → Images → List Str →
    Except Str Images × List Str
  | [], imgs, log => (.ok imgs, log)
  | ref :: rest, imgs, log =>
    let absolutePath := resolve emailsDir ref.relativePath
    match (objValues imgs).find? (fun img => img.localPath = absolutePath) with
    | some _ => uploadOverRefs uploader resolve emailsDir rest imgs log
    | none =>
      match uploader absolutePath with
      | .error e => (.error e, log ++ [absolutePath])
      | .ok res =>
        uploadOverRefs uploader resolve emailsDir rest
          (objInsert imgs res.id ⟨res.id, absolutePath, res.url, res.filename⟩)
          (log ++ [absolutePath])

/-- The upload loop over all local emails (`performPush` step 3): emails
with a falsy body are skipped. -/
def uploadOverEmails (uploader : Str → Except Str UploadInfo) (resolve : Str → Str → Str)
    (emailsDir : Str) : List Email → Images → List Str → Except Str Images × List Str
  | [], imgs, log => (.ok imgs, log)
  | e :: rest, imgs, log =>
    if e.body.getD [] = [] then uploadOverEmails uploader resolve emailsDir rest imgs log
    else
      match uploadOverRefs uploader resolve emailsDir
          (findRelativeImageReferences (e.body.getD [])) imgs log with
      | (.ok imgs2, log2) => uploadOverEmails uploader resolve emailsDir rest imgs2 log2
      | (.error er, log2) => (.error er, log2)

/-- `new Map(remoteEmails.map(e => [e.id, e]))` as an association list. -/
def remoteById (remote : List Email) : List (Option Val × Email) :=
  remote.map (fun e => (e.id, e))

/-- JavaScript `Map.prototype.get`: the last binding for the key wins. -/
def jsMapGet (l : List (Option Val × Email)) (k : Option Val) : Option Email :=
  (l.reverse.find? (fun kv => kv.1 = k)).map Prod.snd

/-- Step 4 of `performPush`: the localPath/url map built from the synced
images (`Object.entries(syncedImages).map(...)`). -/
def pushImageMap (imgs : Images) : List (Str × ImageMapEntry) :=
  imgs.map (fun kv => (kv.1, ImageMapEntry.mk kv.2.localPath kv.2.url))

/-- Step 4 of `performPush`: rewrite each truthy body through the image
resolver. -/
def resolvedEmailsOf (resolve : Str → Str → Str) (emailsDir : Str)
    (imageMap : List (Str × ImageMapEntry)) (localEmails : List Email) : List Email :=
  localEmails.map (fun email =>
    { email with
      body := match email.body with
        | some b =>
          if b = [] then some b
          else some (resolveRelativeImageReferences resolve b emailsDir imageMap)
        | none => none })

/-- Step 5 of `performPush` (lines 133-149): keep a record when it has no
truthy id, no remote counterpart, or a serialized form different from its
counterpart's. -/
def diffEmails (remote : List Email) (resolved : List Email) : List Email :=
  resolved.filter (fun email =>
    if ¬ idTruthy email then true
    else
      match jsMapGet (remoteById remote) email.id with
      | none => true
      | some r => serialize email ≠ serialize r)

/-- Observable outcome of one push run. -/
structure PushOutcome where
  /-- `some msg` when the run dispatched `register_error`. -/
  errorMsg : Option Str
  /-- The per-resource stats dispatched, in order. -/
  stats : List (String × OperationResult)
  /-- The calls `REMOTE_EMAILS_RESOURCE.set` issued. -/
  emailCalls : List EmailCall
  /-- The image upload requests issued, in order. -/
  uploadCalls : List Str
  /-- The state handed to `writeSyncState`, when the run got there. -/
  stateWritten : Option Images

/-- Translation of `performPush` (`src/src/commands/push.tsx` lines
85-191): read state, upload new referenced images, resolve references,
diff against the remote list by serialized form, push the changed emails,
push the base resources, write the state; any upload throw aborts the run
through the surrounding catch. -/
def performPush (env : PushEnv) : PushOutcome :=
  let syncedImages := env.syncedImages0
  match env.localEmails with
  | some localEmails =>
    match uploadOverEmails env.uploader env.resolve env.emailsDir localEmails
        syncedImages [] with
    | (.error e, log) => ⟨some e, [], [], log, none⟩
    | (.ok imgs, log) =>
      let resolved := resolvedEmailsOf env.resolve env.emailsDir (pushImageMap imgs) localEmails
      let changedEmails := diffEmails env.remoteEmails resolved
      let (emailCalls, emailResult) := REMOTE_EMAILS_RESOURCE_set changedEmails
      let baseStats := env.baseRuns.filterMap (fun nr => nr.2.map (fun r => (nr.1, r)))
      ⟨none, ("emails", emailResult) :: baseStats, emailCalls, log, some imgs⟩
  | none =>
    let baseStats := env.baseRuns.filterMap (fun nr => nr.2.map (fun r => (nr.1, r)))
    ⟨none, baseStats, [], [], some syncedImages⟩

/-! The well-behaved record domain for the codec round trip: records whose
present frontmatter fields are plain scalar strings that the serializer's
filter keeps, and whose body is trimmed text free of the frontmatter
delimiter and of the editor-mode sigil. -/

/-- YAML-reserved words a plain scalar must not spell. -/
def RESERVED_SCALARS : List Str :=
  (["true", "false", "null", "yes", "no", "on", "off", "y", "n",
    "nan", "inf", "infinity"].map String.data)

/-- Scalar strings the modelled YAML codec round-trips verbatim: nonempty,
starting with a letter, drawn from a conservative plain-scalar alphabet, no
trailing space, free of the three-dash delimiter, and not a YAML keyword. -/
def plainScalar (v : Str) : Bool :=
  (v ≠ []) &&
  (match v.head? with
   | some c => c.isAlpha
   | none => false) &&
  v.all (fun c => c.isAlphanum || c = '-' || c = '_' || c = '.' || c = '/' || c = ' ') &&
  (v.getLast? ≠ some ' ') &&
  (!hasTriple v) &&
  (!(RESERVED_SCALARS.contains (strToLower v)))

/-- A frontmatter field is good when absent, or a kept plain scalar. -/
def goodField (k : String) (o : Option Val) : Bool :=
  match o with
  | none => true
  | some (.s v) => plainScalar v && keepEntry k (.s v)
  | some _ => false

/-- A body is good when already trimmed and free of the delimiter and of
the editor-mode sigil. -/
def goodBody (b : Str) : Bool :=
  (jsTrim b = b) && (!hasTriple b) && !(decide (MARKDOWN_MODE_SIGIL <:+: b))

/-- The record domain of the amended round-trip claim. -/
def goodEmail (r : Email) : Bool :=
  goodField "id" r.id && goodField "subject" r.subject &&
  goodField "email_type" r.email_type && goodField "status" r.status &&
  goodField "metadata" r.metadata && goodField "slug" r.slug &&
  goodField "publish_date" r.publish_date && goodField "description" r.description &&
  goodField "image" r.image && goodField "canonical_url" r.canonical_url &&
  goodField "secondary_id" r.secondary_id && goodField "filters" r.filters &&
  goodField "commenting_mode" r.commenting_mode &&
  goodField "related_email_ids" r.related_email_ids &&
  goodField "featured" r.featured &&
  (r.attachments = none) &&
  (match r.body with
   | some b => goodBody b
   | none => false) &&
  (serializeEntries r ≠ [])

/-- Character shape shared by every allow-listed frontmatter key: nonempty,
letter-initial, letters and underscores only. -/
def keyCharsOK (k : String) : Bool :=
  decide (k.data ≠ []) &&
  (match k.data.head? with
   | some c => c.isAlpha
   | none => false) &&
  k.data.all (fun c => c.isAlpha || c = '_')

/-! Concrete records, environments and invariant structures used by the
claim theorems below. -/

/-- Invariant of the upload loop: the log is duplicate-free, every logged
path is a localPath of the current map, the initial entries survive in the
map, initial paths are never logged, and every key of the map comes from
the initial state or from a logged upload. -/
structure UploadInv (uploader : Str → Except Str UploadInfo) (S0 imgs : Images)
    (log : List Str) : Prop where
  nodup : log.Nodup
  logged_in_map : ∀ p ∈ log, ∃ img ∈ objValues imgs, img.localPath = p
  initial_sub : ∀ img ∈ objValues S0, img ∈ objValues imgs
  initial_unlogged : ∀ img ∈ objValues S0, img.localPath ∉ log
  keys_from : ∀ kv ∈ imgs, (∃ kv0 ∈ S0, kv0.1 = kv.1) ∨
    ∃ p ∈ log, ∃ r, uploader p = .ok r ∧ r.id = kv.1

/-- Concrete valid input whose deserialized record carries a default-valued
frontmatter field. -/
def cexRoundtripInput : Str := "---\nsubject: a\nemail_type: public\n---\n\nhello".data

/-- Concrete record whose body contains the frontmatter delimiter. -/
def cexTripleBodyEmail : Email :=
  { subject := some (.s "a".data), body := some "x---y".data }

/-- A concrete record in the well-behaved domain of the amended claim. -/
def cexGoodEmail : Email :=
  { subject := some (.s "Hello world".data), status := some (.s "draft".data),
    body := some "Body text here.".data }

/-- The local record of the fingerprint-equal push scenario. -/
def cexLocalEmail : Email :=
  { id := some (.s "e1".data), subject := some (.s "new subject".data),
    body := some "hello".data }

/-- Its remote counterpart: same fingerprint fields, different subject. -/
def cexRemoteEmail : Email :=
  { id := some (.s "e1".data), subject := some (.s "old subject".data),
    body := some "hello".data }

/-- Push environment with that one local record and its counterpart. -/
def cexDiffEnv : PushEnv :=
  { syncedImages0 := [], localEmails := some [cexLocalEmail],
    remoteEmails := [cexRemoteEmail], emailsDir := "/d/emails".data,
    uploader := fun _ => Except.error [], resolve := fun _ p => p, baseRuns := [] }

/-- The unchanged-record scenario: local equals remote byte for byte. -/
def cexNoopEmail : Email :=
  { id := some (.s "e1".data), subject := some (.s "s".data),
    body := some "hello".data }

/-- Push environment whose only local record equals its counterpart. -/
def cexNoopEnv : PushEnv :=
  { syncedImages0 := [], localEmails := some [cexNoopEmail],
    remoteEmails := [cexNoopEmail], emailsDir := "/d/emails".data,
    uploader := fun _ => Except.error [], resolve := fun _ p => p, baseRuns := [] }

/-- Concrete emails colliding under the 32-bit rolling hash. -/
def cexHashA : Email := { body := some "Aa".data }

/-- Second record of the hash collision pair. -/
def cexHashB : Email := { body := some "BB".data }

/-- Push environment for the idempotence witness: one already-synced image
and one new image referenced twice. -/
def cexIdemEnv : PushEnv :=
  { syncedImages0 := [("k1".data, ⟨"k1".data, "s.png".data, "u0".data, "s.png".data⟩)]
  , localEmails := some [{ body := some "![a](m.png) ![b](m.png) ![c](s.png)".data }]
  , remoteEmails := []
  , emailsDir := "/d".data
  , uploader := fun p => Except.ok ⟨'u' :: p, p, p⟩
  , resolve := fun _ rel => rel
  , baseRuns := [] }

/-- The JSON document the end-of-run `writeSyncState` call of a push run
produces, when the run reaches step 8. -/
def performPushWrittenFile (env : PushEnv) : Option (List (String × Json)) :=
  (performPush env).stateWritten.map writeSyncStateObj

/-- The local email of the upload-failure scenario. -/
def cexUploadEmail : Email :=
  { subject := some (.s "a".data), body := some "x ![p](../m/p.png)".data }

/-- Concrete push environment whose single referenced image fails to
upload while a base resource has data to push. -/
def cexUploadEnv : PushEnv :=
  { syncedImages0 := []
  , localEmails := some [cexUploadEmail]
  , remoteEmails := []
  , emailsDir := "/d/emails".data
  , uploader := fun _ => .error "Failed to upload image p.png".data
  , resolve := fun dir rel => dir ++ '/' :: rel
  , baseRuns := [("automations", some ⟨1, 0, 0, 0⟩)] }

/-- Upload endpoint stub for the C5 counterexample: every upload succeeds
with a fixed CDN identity. -/
def cexUploader : Str → Except Str UploadInfo :=
  fun _ => .ok ⟨"img1".data, "https://cdn/m.png".data, "m.png".data⟩

/-! ### Helper lemmas -/

theorem joinBar_cons_ne_nil (x : Str) (l : List Str) (h : l ≠ []) :
    joinBar (x :: l) = x ++ '|' :: joinBar l := by
  cases l with
  | nil => exact absurd rfl h
  | cons y ys => rfl

theorem joinBar_single_change (pre suf : List Str) (v w : Str) (hne : v ≠ w) :
    joinBar (pre ++ v :: suf) ≠ joinBar (pre ++ w :: suf) := by
  induction pre with
  | nil =>
    cases suf with
    | nil => simpa [joinBar] using hne
    | cons s ss =>
      intro heq
      rw [List.nil_append, List.nil_append,
        joinBar_cons_ne_nil v (s :: ss) (by simp),
        joinBar_cons_ne_nil w (s :: ss) (by simp)] at heq
      have hlen : v.length = w.length := by
        have hl := congrArg List.length heq
        simp only [List.length_append, List.length_cons] at hl
        omega
      exact hne (List.append_inj_left heq hlen)
  | cons p pre' ih =>
    intro heq
    rw [List.cons_append, List.cons_append,
      joinBar_cons_ne_nil p (pre' ++ v :: suf) (by simp),
      joinBar_cons_ne_nil p (pre' ++ w :: suf) (by simp)] at heq
    have h2 := List.append_cancel_left heq
    have h3 : joinBar (pre' ++ v :: suf) = joinBar (pre' ++ w :: suf) :=
      List.cons.inj h2 |>.2
    exact ih h3

theorem lookup_append_of_some (k : String) (v : Json) (l₁ l₂ : List (String × Json))
    (h : List.lookup k l₁ = some v) : List.lookup k (l₁ ++ l₂) = some v := by
  induction l₁ with
  | nil => simp [List.lookup] at h
  | cons kv rest ih =>
    obtain ⟨k1, v1⟩ := kv
    simp only [List.lookup, List.cons_append] at h ⊢
    cases hk : (k == k1) with
    | true => rw [hk] at h; exact h
    | false => rw [hk] at h; exact ih h

theorem lookup_append_of_none (k : String) (l₁ l₂ : List (String × Json))
    (h : List.lookup k l₁ = none) : List.lookup k (l₁ ++ l₂) = List.lookup k l₂ := by
  induction l₁ with
  | nil => rfl
  | cons kv rest ih =>
    obtain ⟨k1, v1⟩ := kv
    simp only [List.lookup, List.cons_append] at h ⊢
    cases hk : (k == k1) with
    | true => rw [hk] at h; exact absurd h (by simp)
    | false => rw [hk] at h; exact ih h

theorem lookup_map_spreadVal (a b : List (String × Json)) (k : String) :
    List.lookup k (a.map (fun kv => (kv.1, (List.lookup kv.1 b).getD kv.2))) =
      (List.lookup k a).map (fun v => (List.lookup k b).getD v) := by
  induction a with
  | nil => rfl
  | cons kv rest ih =>
    obtain ⟨k1, v1⟩ := kv
    simp only [List.map_cons, List.lookup]
    cases hk : (k == k1) with
    | true =>
      have hkk : k = k1 := by simpa using hk
      subst hkk
      simp
    | false => simpa [hk] using ih

theorem lookup_filter_keyed (p : String × Json → Bool) (k : String)
    (hp : ∀ v, p (k, v) = true) (l : List (String × Json)) :
    List.lookup k (l.filter p) = List.lookup k l := by
  induction l with
  | nil => rfl
  | cons kv rest ih =>
    obtain ⟨k1, v1⟩ := kv
    by_cases hk : k1 = k
    · subst hk
      simp [List.filter_cons, hp v1, List.lookup]
    · have hbeq : (k == k1) = false := by
        simp only [beq_eq_false_iff_ne, ne_eq]
        exact fun h => hk h.symm
      by_cases hkeep : p (k1, v1) = true
      · simp [List.filter_cons, hkeep, List.lookup, hbeq, ih]
      · simp [List.filter_cons, hkeep, List.lookup, hbeq, ih]

theorem dropWhile_head_false {α : Type} (p : α → Bool) (l : List α) (x : α) (t : List α)
    (h : l.dropWhile p = x :: t) : p x = false := by
  induction l with
  | nil => simp [List.dropWhile] at h
  | cons c rest ih =>
    simp only [List.dropWhile] at h
    cases hpc : p c with
    | true => rw [hpc] at h; exact ih h
    | false => rw [hpc] at h; cases h; exact hpc

theorem parseRefCore_eq (s alt inner rest : Str)
    (h : parseRefCore s = some (alt, inner, rest)) :
    s = refText alt inner ++ rest := by
  cases s with
  | nil => simp [parseRefCore] at h
  | cons a s1 =>
    cases s1 with
    | nil => simp [parseRefCore] at h
    | cons b rest0 =>
      simp only [parseRefCore] at h
      split at h
      next hab =>
        obtain ⟨ha, hb⟩ := hab
        subst ha hb
        split at h
        next hpar =>
          split at h
          next hne =>
            obtain ⟨hinner, hr4⟩ := hne
            simp only [Option.some.injEq, Prod.mk.injEq] at h
            obtain ⟨h1, h2, h3⟩ := h
            subst h1 h2 h3
            cases hr2 : rest0.dropWhile (fun c => c ≠ ']') with
            | nil => rw [hr2] at hpar; simp at hpar
            | cons x t =>
              have hx : x = ']' := by simpa using dropWhile_head_false _ _ _ _ hr2
              rw [hr2] at hpar hr4
              cases t with
              | nil => simp at hpar
              | cons y t2 =>
                have hy : y = '(' := by simpa using hpar
                subst hx hy
                simp only [List.drop_succ_cons, List.drop_zero] at hr4 ⊢
                cases hr4c : t2.dropWhile (fun c => c ≠ ')') with
                | nil => rw [hr4c] at hr4; simp at hr4
                | cons z r5 =>
                  have hz : z = ')' := by simpa using dropWhile_head_false _ _ _ _ hr4c
                  subst hz
                  have e0 : rest0 = rest0.takeWhile (fun c => c ≠ ']') ++
                      (']' :: '(' :: t2) := by
                    rw [← hr2, List.takeWhile_append_dropWhile]
                  have e3 : t2 = t2.takeWhile (fun c => c ≠ ')') ++ (')' :: r5) := by
                    rw [← hr4c, List.takeWhile_append_dropWhile]
                  conv_lhs => rw [e0, e3]
                  simp [refText]
          next => simp at h
        next => simp at h
      next => simp at h

theorem parseAfterScheme_eq (alt pre t alt2 url rest : Str)
    (h : parseAfterScheme alt pre t = some (alt2, url, rest)) :
    alt2 = alt ∧ url ++ ')' :: rest = pre ++ t := by
  simp only [parseAfterScheme] at h
  split at h
  next hne =>
    obtain ⟨htail, hr4⟩ := hne
    simp only [Option.some.injEq, Prod.mk.injEq] at h
    obtain ⟨h1, h2, h3⟩ := h
    subst h1 h2 h3
    refine ⟨rfl, ?_⟩
    cases hr4c : t.dropWhile (fun c => c ≠ ')') with
    | nil => exact absurd hr4c hr4
    | cons z r5 =>
      have hz : z = ')' := by simpa using dropWhile_head_false _ _ _ _ hr4c
      subst hz
      simp only [List.drop_succ_cons, List.drop_zero, List.append_assoc]
      congr 1
      rw [← hr4c, List.takeWhile_append_dropWhile]
  next => simp at h

theorem parseUrlTail_eq (alt rest3 alt2 url rest : Str)
    (h : parseUrlTail alt rest3 = some (alt2, url, rest)) :
    alt2 = alt ∧ url ++ ')' :: rest = rest3 := by
  simp only [parseUrlTail] at h
  split at h
  next hpre =>
    obtain ⟨t2, ht2⟩ := List.isPrefixOf_iff_prefix.mp hpre
    obtain ⟨h1, h2⟩ := parseAfterScheme_eq _ _ _ _ _ _ h
    refine ⟨h1, ?_⟩
    have hdrop : rest3.drop 8 = t2 := by
      rw [← ht2]
      exact List.drop_left "https://".data t2
    rw [h2, hdrop, ht2]
  next =>
    split at h
    next hpre =>
      obtain ⟨t2, ht2⟩ := List.isPrefixOf_iff_prefix.mp hpre
      obtain ⟨h1, h2⟩ := parseAfterScheme_eq _ _ _ _ _ _ h
      refine ⟨h1, ?_⟩
      have hdrop : rest3.drop 7 = t2 := by
        rw [← ht2]
        exact List.drop_left "http://".data t2
      rw [h2, hdrop, ht2]
    next => simp at h

theorem parseAbsRef_eq (s alt url rest : Str)
    (h : parseAbsRef s = some (alt, url, rest)) :
    s = refText alt url ++ rest := by
  cases s with
  | nil => simp [parseAbsRef] at h
  | cons a s1 =>
    cases s1 with
    | nil => simp [parseAbsRef] at h
    | cons b rest0 =>
      simp only [parseAbsRef] at h
      split at h
      next hab =>
        obtain ⟨ha, hb⟩ := hab
        subst ha hb
        split at h
        next hpar =>
          cases hr2 : rest0.dropWhile (fun c => c ≠ ']') with
          | nil => rw [hr2] at hpar; simp at hpar
          | cons x t =>
            have hx : x = ']' := by simpa using dropWhile_head_false _ _ _ _ hr2
            rw [hr2] at hpar h
            cases t with
            | nil => simp at hpar
            | cons y t2 =>
              have hy : y = '(' := by simpa using hpar
              subst hx hy
              simp only [List.drop_succ_cons, List.drop_zero] at h
              obtain ⟨h1, h2⟩ := parseUrlTail_eq _ _ _ _ _ h
              subst h1
              have e0 : rest0 = rest0.takeWhile (fun c => c ≠ ']') ++
                  (']' :: '(' :: t2) := by
                rw [← hr2, List.takeWhile_append_dropWhile]
              conv_lhs => rw [e0, ← h2]
              simp [refText]
        next => simp at h
      next => simp at h

theorem convertAbsGo_id (relative : Str → Str → Str) (emailDir : Str)
    (syncedImages : Images) : ∀ (fuel : Nat) (s : Str),
    (∀ au ∈ absRefsGo fuel s, ∀ img ∈ objValues syncedImages, img.url ≠ au.2) →
    convertAbsGo relative emailDir syncedImages fuel s = s := by
  intro fuel
  induction fuel with
  | zero => intro s _; simp [convertAbsGo]
  | succ n ih =>
    intro s h
    cases s with
    | nil => simp [convertAbsGo]
    | cons c rest =>
      cases hp : parseAbsRef (c :: rest) with
      | none =>
        simp only [convertAbsGo, hp]
        exact congrArg (c :: ·)
          (ih rest (fun au hau img himg =>
            h au (by simp only [absRefsGo, hp]; exact hau) img himg))
      | some triple =>
        obtain ⟨alt, url, rest5⟩ := triple
        have hmem : (alt, url) ∈ absRefsGo (n + 1) (c :: rest) := by
          simp [absRefsGo, hp]
        have hfind : (objValues syncedImages).find? (fun img => img.url = url) = none := by
          refine List.find?_eq_none.mpr (fun img himg => ?_)
          simpa using h (alt, url) hmem img himg
        simp only [convertAbsGo, hp, hfind]
        rw [ih rest5 (fun au hau img himg =>
          h au (by simp only [absRefsGo, hp, List.mem_cons]; exact Or.inr hau) img himg)]
        exact (parseAbsRef_eq _ _ _ _ hp).symm

theorem diffEmails_mem (remote resolved : List Email) (e : Email) :
    e ∈ diffEmails remote resolved ↔
      e ∈ resolved ∧ (idTruthy e = false ∨
        jsMapGet (remoteById remote) e.id = none ∨
        ∃ r, jsMapGet (remoteById remote) e.id = some r ∧ serialize e ≠ serialize r) := by
  unfold diffEmails
  rw [List.mem_filter]
  refine and_congr_right (fun _ => ?_)
  by_cases hid : idTruthy e
  · cases hmap : jsMapGet (remoteById remote) e.id with
    | none => simp [hid, hmap]
    | some r => simp [hid, hmap]
  · simp [hid]

theorem objInsert_fresh (imgs : Images) (k : Str) (v : SyncedImage)
    (h : ∀ kv ∈ imgs, kv.1 ≠ k) : objInsert imgs k v = imgs ++ [(k, v)] := by
  unfold objInsert
  have hc : ¬ (imgs.any (fun kv => kv.1 = k) = true) := by
    simp only [List.any_eq_true, decide_eq_true_eq, not_exists, not_and]
    exact h
  rw [if_neg hc]

theorem uploadOverRefs_inv (uploader : Str → Except Str UploadInfo)
    (resolve : Str → Str → Str) (emailsDir : Str) (S0 : Images)
    (H1 : ∀ p r, uploader p = .ok r → ∀ kv ∈ S0, kv.1 ≠ r.id)
    (H2 : ∀ p q rp rq, uploader p = .ok rp → uploader q = .ok rq →
      rp.id = rq.id → p = q) :
    ∀ (refs : List RelativeImageReference) (imgs : Images) (log : List Str),
      UploadInv uploader S0 imgs log →
      (∀ imgs2 log2,
        uploadOverRefs uploader resolve emailsDir refs imgs log = (.ok imgs2, log2) →
        UploadInv uploader S0 imgs2 log2) ∧
      (∀ e log2,
        uploadOverRefs uploader resolve emailsDir refs imgs log = (.error e, log2) →
        log2.Nodup ∧ ∀ img ∈ objValues S0, img.localPath ∉ log2) := by
  intro refs
  induction refs with
  | nil =>
    intro imgs log hinv
    refine ⟨?_, ?_⟩
    · intro imgs2 log2 h
      simp only [uploadOverRefs, Prod.mk.injEq, Except.ok.injEq] at h
      obtain ⟨h1, h2⟩ := h
      subst h1 h2
      exact hinv
    · intro e log2 h
      simp only [uploadOverRefs, Prod.mk.injEq] at h
      exact absurd h.1 (by simp)
  | cons ref rest ih =>
    intro imgs log hinv
    cases hfind : (objValues imgs).find?
        (fun img => img.localPath = resolve emailsDir ref.relativePath) with
    | some img0 =>
      have heq : uploadOverRefs uploader resolve emailsDir (ref :: rest) imgs log =
          uploadOverRefs uploader resolve emailsDir rest imgs log := by
        simp only [uploadOverRefs, hfind]
      refine ⟨?_, ?_⟩
      · intro imgs2 log2 h
        rw [heq] at h
        exact (ih imgs log hinv).1 imgs2 log2 h
      · intro e log2 h
        rw [heq] at h
        exact (ih imgs log hinv).2 e log2 h
    | none =>
      have hnp : ∀ img ∈ objValues imgs,
          img.localPath ≠ resolve emailsDir ref.relativePath := by
        intro img himg heq2
        have hfe := List.find?_eq_none.mp hfind img himg
        simp [heq2] at hfe
      have hplog : resolve emailsDir ref.relativePath ∉ log := by
        intro hmem
        obtain ⟨img, himg, hq⟩ := hinv.logged_in_map _ hmem
        exact hnp img himg hq
      cases hup : uploader (resolve emailsDir ref.relativePath) with
      | error e0 =>
        have heq : uploadOverRefs uploader resolve emailsDir (ref :: rest) imgs log =
            (.error e0, log ++ [resolve emailsDir ref.relativePath]) := by
          simp only [uploadOverRefs, hfind, hup]
        refine ⟨?_, ?_⟩
        · intro imgs2 log2 h
          rw [heq] at h
          simp at h
        · intro e log2 h
          rw [heq] at h
          simp only [Prod.mk.injEq, Except.error.injEq] at h
          obtain ⟨h1, h2⟩ := h
          subst h2
          refine ⟨?_, ?_⟩
          · simp [List.nodup_append, hinv.nodup, hplog]
          · intro img himg
            simp only [List.mem_append, List.mem_singleton, not_or]
            exact ⟨hinv.initial_unlogged img himg,
              fun heq2 => hnp img (hinv.initial_sub img himg) heq2⟩
      | ok r =>
        have hfresh : ∀ kv ∈ imgs, kv.1 ≠ r.id := by
          intro kv hkv hkeq
          rcases hinv.keys_from kv hkv with ⟨kv0, hkv0, hk0⟩ |
            ⟨q, hq, r2, hr2, hrid⟩
          · exact H1 _ r hup kv0 hkv0 (hk0.trans hkeq)
          · have hpq : q = resolve emailsDir ref.relativePath :=
              H2 q _ r2 r hr2 hup (by rw [hrid, hkeq])
            rw [hpq] at hq
            exact hplog hq
        have hins : objInsert imgs r.id
            ⟨r.id, resolve emailsDir ref.relativePath, r.url, r.filename⟩ =
            imgs ++ [(r.id,
              ⟨r.id, resolve emailsDir ref.relativePath, r.url, r.filename⟩)] :=
          objInsert_fresh _ _ _ hfresh
        have heq : uploadOverRefs uploader resolve emailsDir (ref :: rest) imgs log =
            uploadOverRefs uploader resolve emailsDir rest
              (imgs ++ [(r.id,
                ⟨r.id, resolve emailsDir ref.relativePath, r.url, r.filename⟩)])
              (log ++ [resolve emailsDir ref.relativePath]) := by
          simp only [uploadOverRefs, hfind, hup, hins]
        have hinv2 : UploadInv uploader S0
            (imgs ++ [(r.id,
              ⟨r.id, resolve emailsDir ref.relativePath, r.url, r.filename⟩)])
            (log ++ [resolve emailsDir ref.relativePath]) := by
          refine ⟨?_, ?_, ?_, ?_, ?_⟩
          · simp [List.nodup_append, hinv.nodup, hplog]
          · intro q hq
            rcases List.mem_append.mp hq with hq | hq
            · obtain ⟨img, himg, hpath⟩ := hinv.logged_in_map q hq
              refine ⟨img, ?_, hpath⟩
              simp only [objValues, List.map_append, List.mem_append] at himg ⊢
              exact Or.inl himg
            · rw [List.mem_singleton.mp hq]
              refine ⟨⟨r.id, resolve emailsDir ref.relativePath, r.url, r.filename⟩,
                ?_, rfl⟩
              simp only [objValues, List.map_append, List.mem_append, List.map_cons,
                List.map_nil, List.mem_singleton]
              exact Or.inr trivial
          · intro img himg
            have hsub := hinv.initial_sub img himg
            simp only [objValues, List.map_append, List.mem_append] at hsub ⊢
            exact Or.inl hsub
          · intro img himg
            simp only [List.mem_append, List.mem_singleton, not_or]
            exact ⟨hinv.initial_unlogged img himg,
              fun heq2 => hnp img (hinv.initial_sub img himg) heq2⟩
          · intro kv hkv
            rcases List.mem_append.mp hkv with hkv | hkv
            · rcases hinv.keys_from kv hkv with hl | ⟨q, hq, r2, hr2, hrid⟩
              · exact Or.inl hl
              · exact Or.inr ⟨q, by simp [hq], r2, hr2, hrid⟩
            · rw [List.mem_singleton.mp hkv]
              exact Or.inr ⟨resolve emailsDir ref.relativePath, by simp, r, hup, rfl⟩
        refine ⟨?_, ?_⟩
        · intro imgs2 log2 h
          rw [heq] at h
          exact (ih _ _ hinv2).1 imgs2 log2 h
        · intro e log2 h
          rw [heq] at h
          exact (ih _ _ hinv2).2 e log2 h

theorem uploadOverEmails_inv (uploader : Str → Except Str UploadInfo)
    (resolve : Str → Str → Str) (emailsDir : Str) (S0 : Images)
    (H1 : ∀ p r, uploader p = .ok r → ∀ kv ∈ S0, kv.1 ≠ r.id)
    (H2 : ∀ p q rp rq, uploader p = .ok rp → uploader q = .ok rq →
      rp.id = rq.id → p = q) :
    ∀ (emails : List Email) (imgs : Images) (log : List Str),
      UploadInv uploader S0 imgs log →
      (∀ imgs2 log2,
        uploadOverEmails uploader resolve emailsDir emails imgs log = (.ok imgs2, log2) →
        UploadInv uploader S0 imgs2 log2) ∧
      (∀ e log2,
        uploadOverEmails uploader resolve emailsDir emails imgs log = (.error e, log2) →
        log2.Nodup ∧ ∀ img ∈ objValues S0, img.localPath ∉ log2) := by
  intro emails
  induction emails with
  | nil =>
    intro imgs log hinv
    refine ⟨?_, ?_⟩
    · intro imgs2 log2 h
      simp only [uploadOverEmails, Prod.mk.injEq, Except.ok.injEq] at h
      obtain ⟨h1, h2⟩ := h
      subst h1 h2
      exact hinv
    · intro e log2 h
      simp only [uploadOverEmails, Prod.mk.injEq] at h
      exact absurd h.1 (by simp)
  | cons em rest ih =>
    intro imgs log hinv
    by_cases hbody : em.body.getD [] = []
    · have heq : uploadOverEmails uploader resolve emailsDir (em :: rest) imgs log =
          uploadOverEmails uploader resolve emailsDir rest imgs log := by
        simp only [uploadOverEmails, hbody, if_true]
      refine ⟨?_, ?_⟩
      · intro imgs2 log2 h
        rw [heq] at h
        exact (ih imgs log hinv).1 imgs2 log2 h
      · intro e log2 h
        rw [heq] at h
        exact (ih imgs log hinv).2 e log2 h
    · have hrefs := uploadOverRefs_inv uploader resolve emailsDir S0 H1 H2
        (findRelativeImageReferences (em.body.getD [])) imgs log hinv
      rcases hr : uploadOverRefs uploader resolve emailsDir
          (findRelativeImageReferences (em.body.getD [])) imgs log with ⟨res, log1⟩
      cases res with
      | ok imgs1 =>
        have hinv1 := hrefs.1 imgs1 log1 hr
        have heq : uploadOverEmails uploader resolve emailsDir (em :: rest) imgs log =
            uploadOverEmails uploader resolve emailsDir rest imgs1 log1 := by
          simp only [uploadOverEmails, hbody, if_false, hr]
        refine ⟨?_, ?_⟩
        · intro imgs2 log2 h
          rw [heq] at h
          exact (ih imgs1 log1 hinv1).1 imgs2 log2 h
        · intro e log2 h
          rw [heq] at h
          exact (ih imgs1 log1 hinv1).2 e log2 h
      | error e1 =>
        have heq : uploadOverEmails uploader resolve emailsDir (em :: rest) imgs log =
            (.error e1, log1) := by
          simp only [uploadOverEmails, hbody, if_false, hr]
        refine ⟨?_, ?_⟩
        · intro imgs2 log2 h
          rw [heq] at h
          simp at h
        · intro e log2 h
          rw [heq] at h
          simp only [Prod.mk.injEq, Except.error.injEq] at h
          obtain ⟨h1, h2⟩ := h
          subst h2
          exact hrefs.2 e1 log1 hr

theorem performPush_uploadCalls_none (env : PushEnv) (h : env.localEmails = none) :
    (performPush env).uploadCalls = [] := by
  simp [performPush, h]

theorem performPush_uploadCalls_some (env : PushEnv) (emails : List Email)
    (h : env.localEmails = some emails) :
    (performPush env).uploadCalls =
      (uploadOverEmails env.uploader env.resolve env.emailsDir emails
        env.syncedImages0 []).2 := by
  rcases hr : uploadOverEmails env.uploader env.resolve env.emailsDir emails
      env.syncedImages0 [] with ⟨res, log⟩
  cases res with
  | error e => simp [performPush, h, hr]
  | ok imgs =>
    rcases hY : REMOTE_EMAILS_RESOURCE_set (diffEmails env.remoteEmails
        (resolvedEmailsOf env.resolve env.emailsDir (pushImageMap imgs) emails)) with
      ⟨a, b⟩
    simp [performPush, h, hr, hY]

/-! Lemmas for the codec round trip. -/

theorem hasTriple_cons_ne (c : Char) (s : Str) (hc : c ≠ '-') :
    hasTriple (c :: s) = hasTriple s := by
  match s with
  | [] => rfl
  | [x] => rfl
  | x :: y :: t =>
    simp only [hasTriple]
    have : (c = '-' && x = '-' && y = '-') = false := by
      simp [hc]
    rw [this, Bool.false_or]

theorem hasTriple_tail (c : Char) (s : Str) (h : hasTriple (c :: s) = false) :
    hasTriple s = false := by
  match s with
  | [] => rfl
  | [x] => rfl
  | x :: y :: t =>
    simp only [hasTriple, Bool.or_eq_false_iff] at h ⊢
    exact h.2

theorem hasTriple_append (a b : Str) (ha : hasTriple a = false)
    (hb : hasTriple b = false) (hhead : b.head? ≠ some '-') :
    hasTriple (a ++ b) = false := by
  induction a with
  | nil => exact hb
  | cons x tail ih =>
    have htail : hasTriple tail = false := hasTriple_tail x tail ha
    have hab : hasTriple (tail ++ b) = false := ih htail
    match htl : tail, b with
    | [], [] => rfl
    | [], [y] => rfl
    | [], y :: z :: t =>
      simp only [List.nil_append] at hab ⊢
      simp only [hasTriple, Bool.or_eq_false_iff]
      refine ⟨?_, hab⟩
      have hy : y ≠ '-' := by
        intro hy
        exact hhead (by simp [hy])
      simp [hy]
    | [w], [] => rfl
    | [w], y :: t =>
      simp only [List.cons_append, List.nil_append] at hab ⊢
      simp only [hasTriple, Bool.or_eq_false_iff]
      refine ⟨?_, hab⟩
      have hy : y ≠ '-' := by
        intro hy
        exact hhead (by simp [hy])
      simp [hy]
    | w :: v :: t2, b2 =>
      simp only [List.cons_append] at hab ⊢
      simp only [hasTriple, Bool.or_eq_false_iff]
      subst htl
      refine ⟨?_, hab⟩
      have hfst : (x = '-' && w = '-' && v = '-') = false := by
        have := ha
        simp only [hasTriple, Bool.or_eq_false_iff] at this
        exact this.1
      exact hfst

theorem getLast?_cons_ne_nil {α : Type} (a : α) (l : List α) (h : l ≠ []) :
    (a :: l).getLast? = l.getLast? := by
  cases l with
  | nil => exact absurd rfl h
  | cons b t => rw [List.getLast?_cons_cons]

theorem splitDashes_noTriple (s : Str) (h : hasTriple s = false) :
    splitDashes s = [s] := by
  match s with
  | [] => rfl
  | [a] => rfl
  | [a, b] => rfl
  | a :: b :: c :: t =>
    simp only [hasTriple, Bool.or_eq_false_iff] at h
    have hcond : ¬ (a = '-' ∧ b = '-' ∧ c = '-') := by
      intro ⟨h1, h2, h3⟩
      simp [h1, h2, h3] at h
    simp only [splitDashes, if_neg hcond]
    rw [splitDashes_noTriple (b :: c :: t) h.2]
    rfl

theorem splitDashes_cons3 (x y z : Char) (t : Str) :
    splitDashes (x :: y :: z :: t) =
      if x = '-' ∧ y = '-' ∧ z = '-' then [] :: splitDashes t
      else headCons x (splitDashes (y :: z :: t)) := rfl

theorem splitDashes_concat (A B : Str) (hA : hasTriple A = false)
    (hlast : A.getLast? ≠ some '-') :
    splitDashes (A ++ '-' :: '-' :: '-' :: B) = A :: splitDashes B := by
  match A with
  | [] =>
    show splitDashes ('-' :: '-' :: '-' :: B) = [] :: splitDashes B
    rw [splitDashes_cons3, if_pos ⟨rfl, rfl, rfl⟩]
  | [a] =>
    have ha : a ≠ '-' := by
      intro h
      exact hlast (by simp [h])
    show splitDashes (a :: '-' :: '-' :: '-' :: B) = [a] :: splitDashes B
    rw [splitDashes_cons3, if_neg (fun h => ha h.1),
      splitDashes_cons3, if_pos ⟨rfl, rfl, rfl⟩]
    rfl
  | a :: a2 :: A2 =>
    have hlast2 : (a2 :: A2).getLast? ≠ some '-' := by
      rw [← getLast?_cons_ne_nil a (a2 :: A2) (by simp)]
      exact hlast
    have htail : hasTriple (a2 :: A2) = false := hasTriple_tail _ _ hA
    have hih := splitDashes_concat (a2 :: A2) B htail hlast2
    cases A2 with
    | nil =>
      have ha2 : a2 ≠ '-' := by
        intro h
        exact hlast (by simp [h])
      show splitDashes (a :: a2 :: '-' :: '-' :: '-' :: B) = [a, a2] :: splitDashes B
      rw [splitDashes_cons3, if_neg (fun h => ha2 h.2.1)]
      rw [show ((a2 :: ([] : Str)) ++ '-' :: '-' :: '-' :: B) =
        a2 :: '-' :: '-' :: '-' :: B from rfl] at hih
      rw [hih]
      rfl
    | cons a3 A3 =>
      have hc : ¬ (a = '-' ∧ a2 = '-' ∧ a3 = '-') := by
        intro ⟨h1, h2, h3⟩
        have := hA
        simp [hasTriple, h1, h2, h3] at this
      show splitDashes (a :: a2 :: a3 :: (A3 ++ '-' :: '-' :: '-' :: B)) =
        (a :: a2 :: a3 :: A3) :: splitDashes B
      rw [splitDashes_cons3, if_neg hc]
      rw [show ((a2 :: a3 :: A3) ++ '-' :: '-' :: '-' :: B) =
        a2 :: a3 :: (A3 ++ '-' :: '-' :: '-' :: B) from rfl] at hih
      rw [hih]
      rfl

/-! Line splitting and joining lemmas. -/

theorem splitLines_ne_nil (s : Str) : splitLines s ≠ [] := by
  match s with
  | [] => simp [splitLines]
  | c :: rest =>
    by_cases hc : c = '\n'
    · simp [splitLines, hc]
    · have := splitLines_ne_nil rest
      simp only [splitLines, if_neg hc]
      cases h : splitLines rest with
      | nil => exact absurd h this
      | cons x xs => simp [headCons]

theorem splitLines_no_nl (l : Str) (h : '\n' ∉ l) : splitLines l = [l] := by
  induction l with
  | nil => rfl
  | cons c rest ih =>
    have hc : c ≠ '\n' := fun hc => h (by simp [hc])
    have hr : '\n' ∉ rest := fun hr => h (List.mem_cons_of_mem _ hr)
    simp only [splitLines, if_neg hc, ih hr, headCons]

theorem splitLines_cons (c : Char) (t : Str) :
    splitLines (c :: t) =
      if c = '\n' then [] :: splitLines t else headCons c (splitLines t) := rfl

theorem splitLines_append_nl (l t : Str) (h : '\n' ∉ l) :
    splitLines (l ++ '\n' :: t) = l :: splitLines t := by
  induction l with
  | nil => simp [splitLines]
  | cons c rest ih =>
    have hc : c ≠ '\n' := fun hc => h (by simp [hc])
    have hr : '\n' ∉ rest := fun hr => h (List.mem_cons_of_mem _ hr)
    show splitLines (c :: (rest ++ '\n' :: t)) = (c :: rest) :: splitLines t
    rw [splitLines_cons, if_neg hc, ih hr]
    rfl

theorem splitLines_joinNl (lines : List Str) (hne : lines ≠ [])
    (h : ∀ l ∈ lines, '\n' ∉ l) : splitLines (joinNl lines) = lines := by
  match lines with
  | [] => exact absurd rfl hne
  | [l] => exact splitLines_no_nl l (h l (by simp))
  | l :: l2 :: ls =>
    have hl : '\n' ∉ l := h l (by simp)
    have hih := splitLines_joinNl (l2 :: ls) (by simp)
      (fun x hx => h x (List.mem_cons_of_mem _ hx))
    show splitLines (l ++ '\n' :: joinNl (l2 :: ls)) = l :: l2 :: ls
    rw [splitLines_append_nl l _ hl, hih]

theorem headCons_append (c : Char) (l : List Str) (l2 : List Str) (h : l ≠ []) :
    headCons c (l ++ l2) = headCons c l ++ l2 := by
  cases l with
  | nil => exact absurd rfl h
  | cons x xs => rfl

theorem splitLines_concat_nl (s : Str) :
    splitLines (s ++ ['\n']) = splitLines s ++ [[]] := by
  induction s with
  | nil => rfl
  | cons c rest ih =>
    show splitLines (c :: (rest ++ ['\n'])) = splitLines (c :: rest) ++ [[]]
    rw [splitLines_cons, splitLines_cons]
    by_cases hc : c = '\n'
    · rw [if_pos hc, if_pos hc, ih]
      rfl
    · rw [if_neg hc, if_neg hc, ih,
        headCons_append c _ _ (splitLines_ne_nil rest)]

theorem flatMap_nl_join {α : Type} (f : α → Str) (es : List α) (hne : es ≠ []) :
    es.flatMap (fun x => f x ++ ['\n']) = joinNl (es.map f) ++ ['\n'] := by
  match es with
  | [] => exact absurd rfl hne
  | [e] => simp [joinNl]
  | e :: e2 :: t =>
    have hih := flatMap_nl_join f (e2 :: t) (by simp)
    rw [List.flatMap_cons, hih]
    show f e ++ ['\n'] ++ (joinNl (List.map f (e2 :: t)) ++ ['\n']) =
      (f e ++ '\n' :: joinNl (List.map f (e2 :: t))) ++ ['\n']
    simp [List.append_assoc]

theorem fixNested_go_id (lines : List Str)
    (h : ∀ l ∈ lines, endsColonNonSpace l = false) :
    fixNested.go lines = lines := by
  match lines with
  | [] => rfl
  | [l] => rfl
  | l :: l2 :: ls =>
    have hl : endsColonNonSpace l = false := h l (by simp)
    have hih := fixNested_go_id (l2 :: ls)
      (fun x hx => h x (List.mem_cons_of_mem _ hx))
    simp only [fixNested.go, hl, Bool.false_and, Bool.false_eq_true, if_neg, hih]
    simp

theorem fixNested_id (lines : List Str) (hne : lines ≠ [])
    (hnl : ∀ l ∈ lines, '\n' ∉ l)
    (hcol : ∀ l ∈ lines, endsColonNonSpace l = false) :
    fixNested (joinNl lines) = joinNl lines := by
  unfold fixNested
  rw [splitLines_joinNl lines hne hnl, fixNested_go_id lines hcol]

theorem replaceFirst_of_not_infix (pat repl s : Str) (h : ¬ pat <:+: s) :
    replaceFirst pat repl s = s := by
  induction s with
  | nil => rfl
  | cons c rest ih =>
    have hpre : pat.isPrefixOf (c :: rest) = false := by
      cases hip : pat.isPrefixOf (c :: rest)
      · rfl
      · exact absurd (List.IsPrefix.isInfix (List.isPrefixOf_iff_prefix.mp hip)) h
    have hrest : ¬ pat <:+: rest := fun hr => h (List.infix_cons hr)
    simp only [replaceFirst, hpre, Bool.false_eq_true, if_false, ih hrest]

theorem splitKeyVal_cons (c : Char) (rest : Str) :
    splitKeyVal (c :: rest) =
      if c = ':' ∧ rest.head? = some ' ' then some ([], rest.drop 1)
      else (splitKeyVal rest).map (fun kv => (c :: kv.1, kv.2)) := rfl

theorem splitKeyVal_render (k v : Str) (hk : ':' ∉ k) :
    splitKeyVal (k ++ ':' :: ' ' :: v) = some (k, v) := by
  induction k with
  | nil => simp [splitKeyVal]
  | cons c rest ih =>
    have hc : c ≠ ':' := fun hc => hk (by simp [hc])
    have hr : ':' ∉ rest := fun hr => hk (List.mem_cons_of_mem _ hr)
    have hcond : ¬ (c = ':' ∧ (rest ++ ':' :: ' ' :: v).head? = some ' ') :=
      fun hx => hc hx.1
    show splitKeyVal (c :: (rest ++ ':' :: ' ' :: v)) = some (c :: rest, v)
    rw [splitKeyVal_cons, if_neg hcond, ih hr]
    rfl

theorem jsTrim_cons_ws (c : Char) (s : Str) (hc : isWs c = true) :
    jsTrim (c :: s) = jsTrim s := by
  simp only [jsTrim, List.dropWhile_cons, hc, if_true]

theorem hasTriple_joinNl (lines : List Str)
    (h : ∀ l ∈ lines, hasTriple l = false ∧ l.head? ≠ some '-') :
    hasTriple (joinNl lines) = false := by
  match lines with
  | [] => rfl
  | [l] => exact (h l (by simp)).1
  | l :: l2 :: ls =>
    have hih := hasTriple_joinNl (l2 :: ls)
      (fun x hx => h x (List.mem_cons_of_mem _ hx))
    show hasTriple (l ++ '\n' :: joinNl (l2 :: ls)) = false
    refine hasTriple_append _ _ (h l (by simp)).1 ?_ (by simp)
    rw [hasTriple_cons_ne '\n' _ (by decide)]
    exact hih

theorem lookup_eq_none_of_not_mem_keys {β : Type} (k : String)
    (l : List (String × β)) (h : k ∉ l.map Prod.fst) : List.lookup k l = none := by
  induction l with
  | nil => rfl
  | cons kv t ih =>
    have hk : k ≠ kv.1 := fun he => h (by simp [he])
    have hbeq : (k == kv.1) = false := beq_eq_false_iff_ne.mpr hk
    simp only [List.lookup, hbeq]
    exact ih (fun hm => h (List.mem_cons_of_mem _ hm))

/-! Entry and key shape lemmas for the round trip. -/

theorem keys_all_ok : FRONT_MATTER_FIELDS.all keyCharsOK = true := by decide

theorem alphaUnderscore_ne (c : Char) (hc : (c.isAlpha || c = '_') = true) :
    c ≠ '\n' ∧ c ≠ ':' ∧ c ≠ '-' := by
  refine ⟨?_, ?_, ?_⟩ <;> (intro h; subst h; exact absurd hc (by decide))

theorem scalarChar_ne (c : Char)
    (hc : (c.isAlphanum || c = '-' || c = '_' || c = '.' || c = '/' || c = ' ') = true) :
    c ≠ '\n' ∧ c ≠ ':' := by
  refine ⟨?_, ?_⟩ <;> (intro h; subst h; exact absurd hc (by decide))

theorem hasTriple_of_no_dash (s : Str) (h : ∀ c ∈ s, c ≠ '-') :
    hasTriple s = false := by
  match s with
  | [] => rfl
  | [a] => rfl
  | [a, b] => rfl
  | a :: b :: c :: t =>
    have ha : a ≠ '-' := h a (by simp)
    have hrec := hasTriple_of_no_dash (b :: c :: t)
      (fun x hx => h x (List.mem_cons_of_mem _ hx))
    simp only [hasTriple, Bool.or_eq_false_iff]
    exact ⟨by simp [ha], hrec⟩

theorem plainScalar_parts (v : Str) (h : plainScalar v = true) :
    v ≠ [] ∧
    (∀ c, v.head? = some c → c.isAlpha = true) ∧
    (∀ c ∈ v, (c.isAlphanum || c = '-' || c = '_' || c = '.' || c = '/' || c = ' ') = true) ∧
    v.getLast? ≠ some ' ' ∧ hasTriple v = false := by
  simp only [plainScalar, Bool.and_eq_true, decide_eq_true_eq, Bool.not_eq_true',
    List.all_eq_true] at h
  refine ⟨h.1.1.1.1.1, ?_, h.1.1.1.2, h.1.1.2, h.1.2⟩
  intro c hc
  have h2 := h.1.1.1.1.2
  rw [hc] at h2
  exact h2

theorem keepEntry_mem_fields (k : String) (v : Val) (h : keepEntry k v = true) :
    k ∈ FRONT_MATTER_FIELDS := by
  simp only [keepEntry, Bool.and_eq_true] at h
  have hc := h.1.2
  simpa using hc

theorem goodField_cases (k : String) (o : Option Val) (hg : goodField k o = true) :
    o = none ∨ ∃ v, o = some (Val.s v) ∧ plainScalar v = true ∧ keepEntry k (Val.s v) = true := by
  cases o with
  | none => exact Or.inl rfl
  | some val =>
    cases val with
    | s v =>
      simp only [goodField, Bool.and_eq_true] at hg
      exact Or.inr ⟨v, rfl, hg.1, hg.2⟩
    | list l => simp [goodField] at hg
    | b bv => simp [goodField] at hg
    | omap l => simp [goodField] at hg
    | filtersObj a b c => simp [goodField] at hg

theorem goodEmail_parts (r : Email) (hg : goodEmail r = true) :
    goodField "id" r.id = true ∧ goodField "subject" r.subject = true ∧
    goodField "email_type" r.email_type = true ∧ goodField "status" r.status = true ∧
    goodField "metadata" r.metadata = true ∧ goodField "slug" r.slug = true ∧
    goodField "publish_date" r.publish_date = true ∧
    goodField "description" r.description = true ∧
    goodField "image" r.image = true ∧ goodField "canonical_url" r.canonical_url = true ∧
    goodField "secondary_id" r.secondary_id = true ∧ goodField "filters" r.filters = true ∧
    goodField "commenting_mode" r.commenting_mode = true ∧
    goodField "related_email_ids" r.related_email_ids = true ∧
    goodField "featured" r.featured = true ∧
    r.attachments = none ∧
    (∃ b, r.body = some b ∧ goodBody b = true) ∧
    serializeEntries r ≠ [] := by
  simp only [goodEmail, Bool.and_eq_true, decide_eq_true_eq] at hg
  obtain ⟨⟨⟨⟨⟨⟨⟨⟨⟨⟨⟨⟨⟨⟨⟨⟨⟨h1, h2⟩, h3⟩, h4⟩, h5⟩, h6⟩, h7⟩, h8⟩, h9⟩, h10⟩,
    h11⟩, h12⟩, h13⟩, h14⟩, h15⟩, h16⟩, h17⟩, h18⟩ := hg
  refine ⟨h1, h2, h3, h4, h5, h6, h7, h8, h9, h10, h11, h12, h13, h14, h15, h16, ?_, h18⟩
  cases hb : r.body with
  | none => rw [hb] at h17; exact absurd h17 (by simp)
  | some b =>
    rw [hb] at h17
    exact ⟨b, rfl, h17⟩

theorem rawEntries_good (r : Email) (hg : goodEmail r = true) :
    ∀ p ∈ rawEntries r, p.2 = none ∨
      ∃ v, p.2 = some (Val.s v) ∧ plainScalar v = true := by
  obtain ⟨h1, h2, h3, h4, h5, h6, h7, h8, h9, h10, h11, h12, h13, h14, h15,
    hatt, _, _⟩ := goodEmail_parts r hg
  intro p hp
  have hred : ∀ {k : String} {o : Option Val}, goodField k o = true →
      o = none ∨ ∃ v, o = some (Val.s v) ∧ plainScalar v = true := by
    intro k o ho
    rcases goodField_cases k o ho with hn | ⟨v, hv, hps, _⟩
    · exact Or.inl hn
    · exact Or.inr ⟨v, hv, hps⟩
  simp only [rawEntries, List.mem_cons, List.not_mem_nil, or_false] at hp
  rcases hp with rfl | rfl | rfl | rfl | rfl | rfl | rfl | rfl | rfl | rfl |
    rfl | rfl | rfl | rfl | rfl | rfl
  · exact hred h1
  · exact hred h2
  · exact hred h3
  · exact hred h4
  · exact hred h5
  · exact hred h6
  · exact hred h7
  · exact hred h8
  · exact hred h9
  · exact hred h10
  · exact hred h11
  · exact hred h12
  · exact hred h13
  · exact hred h14
  · exact hred h15
  · exact Or.inl (by simp [hatt])

theorem serializeEntries_good (r : Email) (hg : goodEmail r = true) :
    ∀ kv ∈ serializeEntries r, ∃ v : Str, kv.2 = Val.s v ∧ plainScalar v = true ∧
      keyCharsOK kv.1 = true ∧ kv.1 ∈ FRONT_MATTER_FIELDS := by
  intro kv hkv
  simp only [serializeEntries, List.mem_filterMap] at hkv
  obtain ⟨a, ha, hfa⟩ := hkv
  rcases rawEntries_good r hg a ha with hnone | ⟨v, hv, hps⟩
  · rw [hnone] at hfa
    simp at hfa
  · rw [hv] at hfa
    simp only [Option.some_bind] at hfa
    by_cases hkeep : keepEntry a.1 (Val.s v) = true
    · rw [if_pos hkeep] at hfa
      have hkv2 : kv = (a.1, Val.s v) := by
        injection hfa with h
        exact h.symm
      subst hkv2
      have hmem : a.1 ∈ FRONT_MATTER_FIELDS := keepEntry_mem_fields _ _ hkeep
      exact ⟨v, rfl, hps, List.all_eq_true.mp keys_all_ok a.1 hmem, hmem⟩
    · rw [if_neg hkeep] at hfa
      exact absurd hfa (by simp)

theorem getLast?_append_right {α : Type} (l l2 : List α) (h : l2 ≠ []) :
    (l ++ l2).getLast? = l2.getLast? := by
  induction l with
  | nil => rfl
  | cons c rest ih =>
    rw [List.cons_append, getLast?_cons_ne_nil c _ (by simp [h]), ih]

theorem head?_append_left {α : Type} (l l2 : List α) (h : l ≠ []) :
    (l ++ l2).head? = l.head? := by
  cases l with
  | nil => exact absurd rfl h
  | cons c rest => rfl

theorem renderLine_eq (kv : String × Val) :
    renderLine kv = kv.1.data ++ ':' :: ' ' :: renderYamlVal kv.2 := by
  unfold renderLine
  rw [show renderLine.west = [':', ' '] from rfl, List.append_assoc]
  rfl

theorem renderLine_facts (kv : String × Val) (v : Str) (hv : kv.2 = Val.s v)
    (hps : plainScalar v = true) (hkey : keyCharsOK kv.1 = true) :
    hasTriple (renderLine kv) = false ∧ (renderLine kv).head? ≠ some '-' ∧
    '\n' ∉ renderLine kv ∧ endsColonNonSpace (renderLine kv) = false ∧
    ':' ∉ kv.1.data ∧ renderYamlVal kv.2 = v := by
  obtain ⟨hvne, hvhead, hvchars, hvlast, hvtriple⟩ := plainScalar_parts v hps
  simp only [keyCharsOK, Bool.and_eq_true, decide_eq_true_eq, List.all_eq_true] at hkey
  obtain ⟨⟨hkne, hkhead⟩, hkchars⟩ := hkey
  have hryv : renderYamlVal kv.2 = v := by rw [hv]; rfl
  have hkdash : ∀ c ∈ kv.1.data, c ≠ '-' := fun c hc =>
    (alphaUnderscore_ne c (hkchars c hc)).2.2
  have hknl : ∀ c ∈ kv.1.data, c ≠ '\n' := fun c hc =>
    (alphaUnderscore_ne c (hkchars c hc)).1
  have hkcolon : ':' ∉ kv.1.data := fun hc => (alphaUnderscore_ne ':' (hkchars ':' hc)).2.1 rfl
  refine ⟨?_, ?_, ?_, ?_, hkcolon, hryv⟩
  · rw [renderLine_eq, hryv]
    refine hasTriple_append _ _ (hasTriple_of_no_dash _ hkdash) ?_ (by simp)
    rw [hasTriple_cons_ne ':' _ (by decide), hasTriple_cons_ne ' ' _ (by decide)]
    exact hvtriple
  · rw [renderLine_eq, head?_append_left _ _ hkne]
    cases hh : kv.1.data with
    | nil => exact absurd hh hkne
    | cons c rest =>
      have hca : (c.isAlpha || c = '_') = true := hkchars c (by simp [hh])
      have := (alphaUnderscore_ne c hca).2.2
      simp only [List.head?_cons, ne_eq, Option.some.injEq]
      intro hcd
      exact this hcd
  · rw [renderLine_eq, hryv]
    intro hmem
    rcases List.mem_append.mp hmem with hk | hrest
    · exact hknl '\n' hk rfl
    · rcases hrest with _ | ⟨_, hrest2⟩
      rcases hrest2 with _ | ⟨_, hvmem⟩
      exact (scalarChar_ne '\n' (hvchars '\n' hvmem)).1 rfl
  · have hgl : (renderLine kv).getLast? = v.getLast? := by
      rw [renderLine_eq, hryv, getLast?_append_right _ _ (by simp),
        getLast?_cons_ne_nil ':' _ (by simp), getLast?_cons_ne_nil ' ' _ hvne]
    cases hvl : v.getLast? with
    | none =>
      rw [hvl] at hgl
      simp [endsColonNonSpace, hgl]
    | some c =>
      rw [hvl] at hgl
      have hcv : c ∈ v := by
        have h1 := List.getLast?_eq_getLast v hvne
        rw [hvl] at h1
        have h2 : c = v.getLast hvne := by injection h1
        rw [h2]
        exact List.getLast_mem hvne
      have hcne : c ≠ ':' := (scalarChar_ne c (hvchars c hcv)).2
      simp [endsColonNonSpace, hgl, hcne]

theorem mem_keys_filterMapSE (t : List (String × Option Val)) (x : String)
    (hx : x ∈ (t.filterMap
      (fun kv => kv.2.bind
        (fun v => if keepEntry kv.1 v then some (kv.1, v) else none))).map Prod.fst) :
    x ∈ t.map Prod.fst := by
  simp only [List.mem_map, List.mem_filterMap] at hx
  obtain ⟨p, ⟨a, hat, hfa⟩, hpx⟩ := hx
  cases hov : a.2 with
  | none =>
    rw [hov] at hfa
    simp at hfa
  | some v =>
    rw [hov] at hfa
    simp only [Option.some_bind] at hfa
    by_cases hkeep : keepEntry a.1 v = true
    · rw [if_pos hkeep] at hfa
      have hp1 : p.1 = a.1 := by
        injection hfa with h
        rw [← h]
      exact List.mem_map.mpr ⟨a, hat, by rw [← hpx, hp1]⟩
    · rw [if_neg hkeep] at hfa
      exact absurd hfa (by simp)

theorem filterMapSE_cons_none (k1 : String) (t : List (String × Option Val)) :
    List.filterMap (fun kv => kv.2.bind
      (fun v => if keepEntry kv.1 v then some (kv.1, v) else none)) ((k1, none) :: t) =
    List.filterMap (fun kv => kv.2.bind
      (fun v => if keepEntry kv.1 v then some (kv.1, v) else none)) t := by
  rw [List.filterMap_cons]
  rfl

theorem filterMapSE_cons_keep (k1 : String) (v : Val) (t : List (String × Option Val))
    (hkeep : keepEntry k1 v = true) :
    List.filterMap (fun kv => kv.2.bind
      (fun v => if keepEntry kv.1 v then some (kv.1, v) else none)) ((k1, some v) :: t) =
    (k1, v) :: List.filterMap (fun kv => kv.2.bind
      (fun v => if keepEntry kv.1 v then some (kv.1, v) else none)) t := by
  rw [List.filterMap_cons]
  simp [hkeep]

theorem filterMapSE_cons_drop (k1 : String) (v : Val) (t : List (String × Option Val))
    (hkeep : keepEntry k1 v = false) :
    List.filterMap (fun kv => kv.2.bind
      (fun v => if keepEntry kv.1 v then some (kv.1, v) else none)) ((k1, some v) :: t) =
    List.filterMap (fun kv => kv.2.bind
      (fun v => if keepEntry kv.1 v then some (kv.1, v) else none)) t := by
  rw [List.filterMap_cons]
  simp [hkeep]

theorem lookup_filterMapSE (l : List (String × Option Val)) (k : String)
    (ov : Option Val) (hnd : (l.map Prod.fst).Nodup) (hmem : (k, ov) ∈ l) :
    List.lookup k (l.filterMap
      (fun kv => kv.2.bind
        (fun v => if keepEntry kv.1 v then some (kv.1, v) else none))) =
      ov.bind (fun v => if keepEntry k v then some v else none) := by
  induction l with
  | nil => exact absurd hmem (List.not_mem_nil _)
  | cons hd t ih =>
    obtain ⟨k1, ov1⟩ := hd
    have hnd2 : (t.map Prod.fst).Nodup := by
      simp only [List.map_cons] at hnd
      exact (List.nodup_cons.mp hnd).2
    by_cases hk : k1 = k
    · subst hk
      have hknot : k1 ∉ t.map Prod.fst := by
        simp only [List.map_cons] at hnd
        exact (List.nodup_cons.mp hnd).1
      have hov : ov1 = ov := by
        rcases List.mem_cons.mp hmem with heq | hmemt
        · injection heq with ha hb
          exact hb.symm
        · exact absurd (List.mem_map.mpr ⟨(k1, ov), hmemt, rfl⟩) hknot
      rw [← hov]
      cases ov1 with
      | none =>
        rw [filterMapSE_cons_none]
        simp only [Option.none_bind]
        exact lookup_eq_none_of_not_mem_keys k1 _
          (fun hm => hknot (mem_keys_filterMapSE t k1 hm))
      | some v =>
        by_cases hkeep : keepEntry k1 v = true
        · rw [filterMapSE_cons_keep k1 v t hkeep]
          simp only [List.lookup, beq_self_eq_true, Option.some_bind, hkeep, if_true]
        · rw [filterMapSE_cons_drop k1 v t (by simpa using hkeep)]
          have hres := lookup_eq_none_of_not_mem_keys k1
            (List.filterMap (fun kv => kv.2.bind
              (fun v => if keepEntry kv.1 v then some (kv.1, v) else none)) t)
            (fun hm => hknot (mem_keys_filterMapSE t k1 hm))
          rw [hres]
          simp [hkeep]
    · have hmemt : (k, ov) ∈ t := by
        rcases List.mem_cons.mp hmem with heq | hmemt
        · injection heq with ha hb
          exact absurd ha.symm hk
        · exact hmemt
      have hrec := ih hnd2 hmemt
      cases ov1 with
      | none =>
        rw [filterMapSE_cons_none]
        exact hrec
      | some v1 =>
        by_cases hkeep : keepEntry k1 v1 = true
        · rw [filterMapSE_cons_keep k1 v1 t hkeep]
          have hbeq : (k == k1) = false := beq_eq_false_iff_ne.mpr (fun h => hk h.symm)
          simp only [List.lookup, hbeq]
          exact hrec
        · rw [filterMapSE_cons_drop k1 v1 t (by simpa using hkeep)]
          exact hrec

theorem rawEntries_keys_nodup (r : Email) : ((rawEntries r).map Prod.fst).Nodup := by
  simp only [rawEntries, List.map_cons, List.map_nil]
  decide

theorem lookup_serializeEntries (r : Email) (k : String) (ov : Option Val)
    (hmem : (k, ov) ∈ rawEntries r) :
    List.lookup k (serializeEntries r) =
      ov.bind (fun v => if keepEntry k v then some v else none) :=
  lookup_filterMapSE (rawEntries r) k ov (rawEntries_keys_nodup r) hmem

theorem mergeF_of_goodField (m : List (String × Val)) (k : String) (o : Option Val)
    (hg : goodField k o = true)
    (hlk : List.lookup k m = o.bind (fun v => if keepEntry k v then some v else none)) :
    mergeF m k none = o := by
  rcases goodField_cases k o hg with hn | ⟨v, hv, hps, hkeep⟩
  · subst hn
    simp only [Option.none_bind] at hlk
    simp [mergeF, hlk]
  · subst hv
    simp only [Option.some_bind, if_pos hkeep] at hlk
    have hvne : v ≠ [] := (plainScalar_parts v hps).1
    have htr : truthyVal (Val.s v) = true := by
      simp [truthyVal, hvne]
    simp [mergeF, hlk, htr]

theorem applyField_eq_id (m : List (String × Val)) (e : Email) :
    applyField m e "id" = { e with id := mergeF m "id" e.id } := by
  unfold applyField mergeF
  cases List.lookup "id" m with
  | none => rfl
  | some v =>
    show (if truthyVal v = true then setField e "id" v else e) =
      { e with id := if truthyVal v = true then some v else e.id }
    by_cases ht : truthyVal v = true
    · rw [if_pos ht, if_pos ht]
      rfl
    · rw [if_neg ht, if_neg ht]

theorem applyField_eq_subject (m : List (String × Val)) (e : Email) :
    applyField m e "subject" = { e with subject := mergeF m "subject" e.subject } := by
  unfold applyField mergeF
  cases List.lookup "subject" m with
  | none => rfl
  | some v =>
    show (if truthyVal v = true then setField e "subject" v else e) =
      { e with subject := if truthyVal v = true then some v else e.subject }
    by_cases ht : truthyVal v = true
    · rw [if_pos ht, if_pos ht]
      rfl
    · rw [if_neg ht, if_neg ht]

theorem applyField_eq_email_type (m : List (String × Val)) (e : Email) :
    applyField m e "email_type" = { e with email_type := mergeF m "email_type" e.email_type } := by
  unfold applyField mergeF
  cases List.lookup "email_type" m with
  | none => rfl
  | some v =>
    show (if truthyVal v = true then setField e "email_type" v else e) =
      { e with email_type := if truthyVal v = true then some v else e.email_type }
    by_cases ht : truthyVal v = true
    · rw [if_pos ht, if_pos ht]
      rfl
    · rw [if_neg ht, if_neg ht]

theorem applyField_eq_status (m : List (String × Val)) (e : Email) :
    applyField m e "status" = { e with status := mergeF m "status" e.status } := by
  unfold applyField mergeF
  cases List.lookup "status" m with
  | none => rfl
  | some v =>
    show (if truthyVal v = true then setField e "status" v else e) =
      { e with status := if truthyVal v = true then some v else e.status }
    by_cases ht : truthyVal v = true
    · rw [if_pos ht, if_pos ht]
      rfl
    · rw [if_neg ht, if_neg ht]

theorem applyField_eq_metadata (m : List (String × Val)) (e : Email) :
    applyField m e "metadata" = { e with metadata := mergeF m "metadata" e.metadata } := by
  unfold applyField mergeF
  cases List.lookup "metadata" m with
  | none => rfl
  | some v =>
    show (if truthyVal v = true then setField e "metadata" v else e) =
      { e with metadata := if truthyVal v = true then some v else e.metadata }
    by_cases ht : truthyVal v = true
    · rw [if_pos ht, if_pos ht]
      rfl
    · rw [if_neg ht, if_neg ht]

theorem applyField_eq_slug (m : List (String × Val)) (e : Email) :
    applyField m e "slug" = { e with slug := mergeF m "slug" e.slug } := by
  unfold applyField mergeF
  cases List.lookup "slug" m with
  | none => rfl
  | some v =>
    show (if truthyVal v = true then setField e "slug" v else e) =
      { e with slug := if truthyVal v = true then some v else e.slug }
    by_cases ht : truthyVal v = true
    · rw [if_pos ht, if_pos ht]
      rfl
    · rw [if_neg ht, if_neg ht]

theorem applyField_eq_publish_date (m : List (String × Val)) (e : Email) :
    applyField m e "publish_date" = { e with publish_date := mergeF m "publish_date" e.publish_date } := by
  unfold applyField mergeF
  cases List.lookup "publish_date" m with
  | none => rfl
  | some v =>
    show (if truthyVal v = true then setField e "publish_date" v else e) =
      { e with publish_date := if truthyVal v = true then some v else e.publish_date }
    by_cases ht : truthyVal v = true
    · rw [if_pos ht, if_pos ht]
      rfl
    · rw [if_neg ht, if_neg ht]

theorem applyField_eq_description (m : List (String × Val)) (e : Email) :
    applyField m e "description" = { e with description := mergeF m "description" e.description } := by
  unfold applyField mergeF
  cases List.lookup "description" m with
  | none => rfl
  | some v =>
    show (if truthyVal v = true then setField e "description" v else e) =
      { e with description := if truthyVal v = true then some v else e.description }
    by_cases ht : truthyVal v = true
    · rw [if_pos ht, if_pos ht]
      rfl
    · rw [if_neg ht, if_neg ht]

theorem applyField_eq_image (m : List (String × Val)) (e : Email) :
    applyField m e "image" = { e with image := mergeF m "image" e.image } := by
  unfold applyField mergeF
  cases List.lookup "image" m with
  | none => rfl
  | some v =>
    show (if truthyVal v = true then setField e "image" v else e) =
      { e with image := if truthyVal v = true then some v else e.image }
    by_cases ht : truthyVal v = true
    · rw [if_pos ht, if_pos ht]
      rfl
    · rw [if_neg ht, if_neg ht]

theorem applyField_eq_canonical_url (m : List (String × Val)) (e : Email) :
    applyField m e "canonical_url" = { e with canonical_url := mergeF m "canonical_url" e.canonical_url } := by
  unfold applyField mergeF
  cases List.lookup "canonical_url" m with
  | none => rfl
  | some v =>
    show (if truthyVal v = true then setField e "canonical_url" v else e) =
      { e with canonical_url := if truthyVal v = true then some v else e.canonical_url }
    by_cases ht : truthyVal v = true
    · rw [if_pos ht, if_pos ht]
      rfl
    · rw [if_neg ht, if_neg ht]

theorem applyField_eq_secondary_id (m : List (String × Val)) (e : Email) :
    applyField m e "secondary_id" = { e with secondary_id := mergeF m "secondary_id" e.secondary_id } := by
  unfold applyField mergeF
  cases List.lookup "secondary_id" m with
  | none => rfl
  | some v =>
    show (if truthyVal v = true then setField e "secondary_id" v else e) =
      { e with secondary_id := if truthyVal v = true then some v else e.secondary_id }
    by_cases ht : truthyVal v = true
    · rw [if_pos ht, if_pos ht]
      rfl
    · rw [if_neg ht, if_neg ht]

theorem applyField_eq_filters (m : List (String × Val)) (e : Email) :
    applyField m e "filters" = { e with filters := mergeF m "filters" e.filters } := by
  unfold applyField mergeF
  cases List.lookup "filters" m with
  | none => rfl
  | some v =>
    show (if truthyVal v = true then setField e "filters" v else e) =
      { e with filters := if truthyVal v = true then some v else e.filters }
    by_cases ht : truthyVal v = true
    · rw [if_pos ht, if_pos ht]
      rfl
    · rw [if_neg ht, if_neg ht]

theorem applyField_eq_commenting_mode (m : List (String × Val)) (e : Email) :
    applyField m e "commenting_mode" = { e with commenting_mode := mergeF m "commenting_mode" e.commenting_mode } := by
  unfold applyField mergeF
  cases List.lookup "commenting_mode" m with
  | none => rfl
  | some v =>
    show (if truthyVal v = true then setField e "commenting_mode" v else e) =
      { e with commenting_mode := if truthyVal v = true then some v else e.commenting_mode }
    by_cases ht : truthyVal v = true
    · rw [if_pos ht, if_pos ht]
      rfl
    · rw [if_neg ht, if_neg ht]

theorem applyField_eq_related_email_ids (m : List (String × Val)) (e : Email) :
    applyField m e "related_email_ids" = { e with related_email_ids := mergeF m "related_email_ids" e.related_email_ids } := by
  unfold applyField mergeF
  cases List.lookup "related_email_ids" m with
  | none => rfl
  | some v =>
    show (if truthyVal v = true then setField e "related_email_ids" v else e) =
      { e with related_email_ids := if truthyVal v = true then some v else e.related_email_ids }
    by_cases ht : truthyVal v = true
    · rw [if_pos ht, if_pos ht]
      rfl
    · rw [if_neg ht, if_neg ht]

theorem applyField_eq_featured (m : List (String × Val)) (e : Email) :
    applyField m e "featured" = { e with featured := mergeF m "featured" e.featured } := by
  unfold applyField mergeF
  cases List.lookup "featured" m with
  | none => rfl
  | some v =>
    show (if truthyVal v = true then setField e "featured" v else e) =
      { e with featured := if truthyVal v = true then some v else e.featured }
    by_cases ht : truthyVal v = true
    · rw [if_pos ht, if_pos ht]
      rfl
    · rw [if_neg ht, if_neg ht]

theorem foldl_applyField (m : List (String × Val)) (e : Email) :
    FRONT_MATTER_FIELDS.foldl (applyField m) e =
      { e with
          id := mergeF m "id" e.id,
          subject := mergeF m "subject" e.subject,
          email_type := mergeF m "email_type" e.email_type,
          status := mergeF m "status" e.status,
          metadata := mergeF m "metadata" e.metadata,
          slug := mergeF m "slug" e.slug,
          publish_date := mergeF m "publish_date" e.publish_date,
          description := mergeF m "description" e.description,
          image := mergeF m "image" e.image,
          canonical_url := mergeF m "canonical_url" e.canonical_url,
          secondary_id := mergeF m "secondary_id" e.secondary_id,
          filters := mergeF m "filters" e.filters,
          commenting_mode := mergeF m "commenting_mode" e.commenting_mode,
          related_email_ids := mergeF m "related_email_ids" e.related_email_ids,
          featured := mergeF m "featured" e.featured } := by
  simp only [FRONT_MATTER_FIELDS, List.foldl_cons, List.foldl_nil,
    applyField_eq_id, applyField_eq_subject, applyField_eq_email_type, applyField_eq_status, applyField_eq_metadata, applyField_eq_slug, applyField_eq_publish_date, applyField_eq_description, applyField_eq_image, applyField_eq_canonical_url, applyField_eq_secondary_id, applyField_eq_filters, applyField_eq_commenting_mode, applyField_eq_related_email_ids, applyField_eq_featured]

theorem parseYAML_of_entries (entries : List (String × Val))
    (hgood : ∀ kv ∈ entries, ∃ v, kv.2 = Val.s v ∧ plainScalar v = true ∧
      keyCharsOK kv.1 = true) :
    List.filterMap (fun l => (splitKeyVal l).map (fun kv => (String.mk kv.1, Val.s kv.2)))
      (entries.map renderLine) = entries := by
  induction entries with
  | nil => rfl
  | cons kv t ih =>
    obtain ⟨v, hv, hps, hkey⟩ := hgood kv (by simp)
    obtain ⟨_, _, _, _, hkcolon, hryv⟩ := renderLine_facts kv v hv hps hkey
    have hskv : splitKeyVal (renderLine kv) = some (kv.1.data, v) := by
      rw [renderLine_eq, hryv]
      exact splitKeyVal_render kv.1.data v hkcolon
    rw [List.map_cons, List.filterMap_cons, hskv]
    have hrec := ih (fun x hx => hgood x (List.mem_cons_of_mem _ hx))
    have hpair : (String.mk kv.1.data, Val.s v) = kv := by
      obtain ⟨k1, v1⟩ := kv
      rw [← hv]
    show (String.mk kv.1.data, Val.s v) ::
      List.filterMap (fun l => (splitKeyVal l).map (fun kv => (String.mk kv.1, Val.s kv.2)))
        (t.map renderLine) = kv :: t
    rw [hrec, hpair]

theorem parseYAML_block (entries : List (String × Val)) (hne : entries ≠ [])
    (hgood : ∀ kv ∈ entries, ∃ v, kv.2 = Val.s v ∧ plainScalar v = true ∧
      keyCharsOK kv.1 = true) :
    parseYAML ('\n' :: (joinNl (entries.map renderLine) ++ ['\n'])) = entries := by
  have hlines_ne : entries.map renderLine ≠ [] := by
    intro h
    apply hne
    cases entries with
    | nil => rfl
    | cons a b => simp at h
  have hnl : ∀ l ∈ entries.map renderLine, '\n' ∉ l := by
    intro l hl
    obtain ⟨kv, hkv, rfl⟩ := List.mem_map.mp hl
    obtain ⟨v, hv, hps, hkey⟩ := hgood kv hkv
    exact (renderLine_facts kv v hv hps hkey).2.2.1
  unfold parseYAML
  rw [splitLines_cons, if_pos rfl, splitLines_concat_nl,
    splitLines_joinNl _ hlines_ne hnl, List.filterMap_cons, List.filterMap_append]
  have htail : List.filterMap
      (fun l => (splitKeyVal l).map (fun kv => (String.mk kv.1, Val.s kv.2)))
      [([] : Str)] = [] := rfl
  rw [htail, List.append_nil]
  show List.filterMap _ (entries.map renderLine) = entries
  exact parseYAML_of_entries entries hgood

theorem serialize_good_eq (r : Email) (b : Str) (hb : r.body = some b)
    (hsig : ¬ MARKDOWN_MODE_SIGIL <:+: b) (hne : serializeEntries r ≠ [])
    (hgood : ∀ kv ∈ serializeEntries r, ∃ v, kv.2 = Val.s v ∧ plainScalar v = true ∧
      keyCharsOK kv.1 = true) :
    serialize r = '-' :: '-' :: '-' ::
      (('\n' :: (joinNl ((serializeEntries r).map renderLine) ++ ['\n'])) ++
       '-' :: '-' :: '-' :: ('\n' :: '\n' :: b)) := by
  have hlines_ne : (serializeEntries r).map renderLine ≠ [] := by
    intro h
    apply hne
    cases hE : serializeEntries r with
    | nil => rfl
    | cons a t => rw [hE] at h; simp at h
  have hnl : ∀ l ∈ (serializeEntries r).map renderLine, '\n' ∉ l := by
    intro l hl
    obtain ⟨kv, hkv, rfl⟩ := List.mem_map.mp hl
    obtain ⟨v, hv, hps, hkey⟩ := hgood kv hkv
    exact (renderLine_facts kv v hv hps hkey).2.2.1
  have hcol : ∀ l ∈ (serializeEntries r).map renderLine, endsColonNonSpace l = false := by
    intro l hl
    obtain ⟨kv, hkv, rfl⟩ := List.mem_map.mp hl
    obtain ⟨v, hv, hps, hkey⟩ := hgood kv hkv
    exact (renderLine_facts kv v hv hps hkey).2.2.2.1
  have hsy : stringifyYAML (serializeEntries r) =
      joinNl ((serializeEntries r).map renderLine) ++ ['\n'] := by
    unfold stringifyYAML
    rw [if_neg hne]
    exact flatMap_nl_join renderLine _ hne
  have hst : stripTrailingNewline (joinNl ((serializeEntries r).map renderLine) ++ ['\n']) =
      joinNl ((serializeEntries r).map renderLine) := by
    unfold stripTrailingNewline
    rw [List.getLast?_concat, if_pos rfl, List.dropLast_concat]
  have hfx : fixNested (joinNl ((serializeEntries r).map renderLine)) =
      joinNl ((serializeEntries r).map renderLine) :=
    fixNested_id _ hlines_ne hnl hcol
  have hbodyeq : ((r.body.map (replaceFirst MARKDOWN_MODE_SIGIL [])).getD "undefined".data) = b := by
    rw [hb]
    show replaceFirst MARKDOWN_MODE_SIGIL [] b = b
    exact replaceFirst_of_not_infix _ _ _ hsig
  show "---\n".data ++ fixNested (stripTrailingNewline (stringifyYAML (serializeEntries r))) ++
      "\n---\n\n".data ++ ((r.body.map (replaceFirst MARKDOWN_MODE_SIGIL [])).getD "undefined".data) =
    '-' :: '-' :: '-' ::
      (('\n' :: (joinNl ((serializeEntries r).map renderLine) ++ ['\n'])) ++
       '-' :: '-' :: '-' :: ('\n' :: '\n' :: b))
  rw [hsy, hst, hfx, hbodyeq,
    show ("---\n".data : Str) = ['-', '-', '-', '\n'] from rfl,
    show ("\n---\n\n".data : Str) = ['\n', '-', '-', '-', '\n', '\n'] from rfl]
  simp [List.append_assoc]

theorem splitDashes_serialize (r : Email) (b : Str) (hb : r.body = some b)
    (hsig : ¬ MARKDOWN_MODE_SIGIL <:+: b) (hbt : hasTriple b = false)
    (hne : serializeEntries r ≠ [])
    (hgood : ∀ kv ∈ serializeEntries r, ∃ v, kv.2 = Val.s v ∧ plainScalar v = true ∧
      keyCharsOK kv.1 = true) :
    splitDashes (serialize r) =
      [[], '\n' :: (joinNl ((serializeEntries r).map renderLine) ++ ['\n']),
       '\n' :: '\n' :: b] := by
  have hlinefacts : ∀ l ∈ (serializeEntries r).map renderLine,
      hasTriple l = false ∧ l.head? ≠ some '-' := by
    intro l hl
    obtain ⟨kv, hkv, rfl⟩ := List.mem_map.mp hl
    obtain ⟨v, hv, hps, hkey⟩ := hgood kv hkv
    exact ⟨(renderLine_facts kv v hv hps hkey).1, (renderLine_facts kv v hv hps hkey).2.1⟩
  have hJ : hasTriple (joinNl ((serializeEntries r).map renderLine)) = false :=
    hasTriple_joinNl _ hlinefacts
  have hA : hasTriple ('\n' :: (joinNl ((serializeEntries r).map renderLine) ++ ['\n'])) = false := by
    rw [hasTriple_cons_ne '\n' _ (by decide)]
    exact hasTriple_append _ _ hJ (by rfl) (by decide)
  have hAlast : ('\n' :: (joinNl ((serializeEntries r).map renderLine) ++ ['\n'])).getLast? ≠
      some '-' := by
    rw [getLast?_cons_ne_nil _ _ (by simp), List.getLast?_concat]
    decide
  have hB2 : hasTriple ('\n' :: '\n' :: b) = false := by
    rw [hasTriple_cons_ne '\n' _ (by decide), hasTriple_cons_ne '\n' _ (by decide)]
    exact hbt
  rw [serialize_good_eq r b hb hsig hne hgood, splitDashes_cons3, if_pos ⟨rfl, rfl, rfl⟩,
    splitDashes_concat _ _ hA hAlast, splitDashes_noTriple _ hB2]

theorem deserialize_of_split (content A B2 : Str)
    (hsplit : splitDashes content = [[], A, B2])
    (entries : List (String × Val)) (hpy : parseYAML A = entries) (hne : entries ≠ [])
    (hattlk : List.lookup "attachments" entries = none) :
    deserialize content =
      ⟨FRONT_MATTER_FIELDS.foldl (applyField entries) { body := some (jsTrim B2) },
       true, none⟩ := by
  have hlen : ¬ (entries.length = 0) := fun h => hne (List.length_eq_zero.mp h)
  unfold deserialize
  rw [hsplit]
  simp only [List.getD_cons_zero, List.getD_cons_succ, List.length_cons, List.length_nil,
    hpy, hattlk, hlen]
  rfl

theorem roundtrip_good (r : Email) (hg : goodEmail r = true) :
    deserialize (serialize r) = ⟨r, true, none⟩ := by
  obtain ⟨h1, h2, h3, h4, h5, h6, h7, h8, h9, h10, h11, h12, h13, h14, h15,
    hatt, ⟨b, hb, hgb⟩, hne⟩ := goodEmail_parts r hg
  simp only [goodBody, Bool.and_eq_true, decide_eq_true_eq, Bool.not_eq_true',
    decide_eq_false_iff_not] at hgb
  obtain ⟨⟨ht1, ht2⟩, ht3⟩ := hgb
  have hgood : ∀ kv ∈ serializeEntries r, ∃ v, kv.2 = Val.s v ∧ plainScalar v = true ∧
      keyCharsOK kv.1 = true := by
    intro kv hkv
    obtain ⟨v, hv, hps, hkey, _⟩ := serializeEntries_good r hg kv hkv
    exact ⟨v, hv, hps, hkey⟩
  have hsplit := splitDashes_serialize r b hb ht3 ht2 hne hgood
  have hpy : parseYAML ('\n' :: (joinNl ((serializeEntries r).map renderLine) ++ ['\n'])) =
      serializeEntries r := parseYAML_block _ hne hgood
  have hattlk : List.lookup "attachments" (serializeEntries r) = none := by
    apply lookup_eq_none_of_not_mem_keys
    intro hm
    obtain ⟨kv, hkv, hk1⟩ := List.mem_map.mp hm
    obtain ⟨v, hv, hps, hkey, hmem⟩ := serializeEntries_good r hg kv hkv
    rw [hk1] at hmem
    exact absurd hmem (by decide)
  have hstep := deserialize_of_split (serialize r) _ _ hsplit (serializeEntries r)
    hpy hne hattlk
  have hjt : jsTrim ('\n' :: '\n' :: b) = b := by
    rw [jsTrim_cons_ws _ _ (by decide), jsTrim_cons_ws _ _ (by decide), ht1]
  rw [hjt, foldl_applyField] at hstep
  have hm1 : mergeF (serializeEntries r) "id" none = r.id :=
    mergeF_of_goodField _ _ _ h1
      (lookup_serializeEntries r "id" r.id (by simp [rawEntries]))
  have hm2 : mergeF (serializeEntries r) "subject" none = r.subject :=
    mergeF_of_goodField _ _ _ h2
      (lookup_serializeEntries r "subject" r.subject (by simp [rawEntries]))
  have hm3 : mergeF (serializeEntries r) "email_type" none = r.email_type :=
    mergeF_of_goodField _ _ _ h3
      (lookup_serializeEntries r "email_type" r.email_type (by simp [rawEntries]))
  have hm4 : mergeF (serializeEntries r) "status" none = r.status :=
    mergeF_of_goodField _ _ _ h4
      (lookup_serializeEntries r "status" r.status (by simp [rawEntries]))
  have hm5 : mergeF (serializeEntries r) "metadata" none = r.metadata :=
    mergeF_of_goodField _ _ _ h5
      (lookup_serializeEntries r "metadata" r.metadata (by simp [rawEntries]))
  have hm6 : mergeF (serializeEntries r) "slug" none = r.slug :=
    mergeF_of_goodField _ _ _ h6
      (lookup_serializeEntries r "slug" r.slug (by simp [rawEntries]))
  have hm7 : mergeF (serializeEntries r) "publish_date" none = r.publish_date :=
    mergeF_of_goodField _ _ _ h7
      (lookup_serializeEntries r "publish_date" r.publish_date (by simp [rawEntries]))
  have hm8 : mergeF (serializeEntries r) "description" none = r.description :=
    mergeF_of_goodField _ _ _ h8
      (lookup_serializeEntries r "description" r.description (by simp [rawEntries]))
  have hm9 : mergeF (serializeEntries r) "image" none = r.image :=
    mergeF_of_goodField _ _ _ h9
      (lookup_serializeEntries r "image" r.image (by simp [rawEntries]))
  have hm10 : mergeF (serializeEntries r) "canonical_url" none = r.canonical_url :=
    mergeF_of_goodField _ _ _ h10
      (lookup_serializeEntries r "canonical_url" r.canonical_url (by simp [rawEntries]))
  have hm11 : mergeF (serializeEntries r) "secondary_id" none = r.secondary_id :=
    mergeF_of_goodField _ _ _ h11
      (lookup_serializeEntries r "secondary_id" r.secondary_id (by simp [rawEntries]))
  have hm12 : mergeF (serializeEntries r) "filters" none = r.filters :=
    mergeF_of_goodField _ _ _ h12
      (lookup_serializeEntries r "filters" r.filters (by simp [rawEntries]))
  have hm13 : mergeF (serializeEntries r) "commenting_mode" none = r.commenting_mode :=
    mergeF_of_goodField _ _ _ h13
      (lookup_serializeEntries r "commenting_mode" r.commenting_mode (by simp [rawEntries]))
  have hm14 : mergeF (serializeEntries r) "related_email_ids" none = r.related_email_ids :=
    mergeF_of_goodField _ _ _ h14
      (lookup_serializeEntries r "related_email_ids" r.related_email_ids (by simp [rawEntries]))
  have hm15 : mergeF (serializeEntries r) "featured" none = r.featured :=
    mergeF_of_goodField _ _ _ h15
      (lookup_serializeEntries r "featured" r.featured (by simp [rawEntries]))
  have hstep2 : deserialize (serialize r) =
      ⟨⟨mergeF (serializeEntries r) "id" none,
         mergeF (serializeEntries r) "subject" none,
         mergeF (serializeEntries r) "email_type" none,
         mergeF (serializeEntries r) "status" none,
         mergeF (serializeEntries r) "metadata" none,
         mergeF (serializeEntries r) "slug" none,
         mergeF (serializeEntries r) "publish_date" none,
         mergeF (serializeEntries r) "description" none,
         mergeF (serializeEntries r) "image" none,
         mergeF (serializeEntries r) "canonical_url" none,
         mergeF (serializeEntries r) "secondary_id" none,
         mergeF (serializeEntries r) "filters" none,
         mergeF (serializeEntries r) "commenting_mode" none,
         mergeF (serializeEntries r) "related_email_ids" none,
         mergeF (serializeEntries r) "featured" none,
         some b, none⟩, true, none⟩ := hstep
  rw [hm1, hm2, hm3, hm4, hm5, hm6, hm7, hm8, hm9, hm10, hm11, hm12, hm13, hm14, hm15, ← hb, ← hatt] at hstep2
  exact hstep2

/-! ### Claims -/

/-- Claim C1, counterexample: the round trip fails on the code. A record
produced by `deserialize` from valid input carrying `email_type: public`
loses that field through `serialize` (the default is filtered out), so
`deserialize(serialize(r)).record` is not field-equal to `r`; and for a
record whose body contains `---`, the body is truncated at the delimiter
and the second serialization is not byte-identical. -/
theorem c1_roundtrip_counterexample :
    (deserialize cexRoundtripInput).isValid = true ∧
    (deserialize (serialize (deserialize cexRoundtripInput).email)).email ≠
      (deserialize cexRoundtripInput).email ∧
    (deserialize (serialize cexTripleBodyEmail)).email.body ≠ cexTripleBodyEmail.body ∧
    serialize (deserialize (serialize cexTripleBodyEmail)).email ≠
      serialize cexTripleBodyEmail := by
  refine ⟨by decide, by decide, by decide, by decide⟩

/-- Claim C1, amended: on the well-behaved domain (`goodEmail`: present
frontmatter fields are kept plain scalar strings, attachments absent, body
trimmed and free of the `---` delimiter and of the editor-mode sigil, at
least one field emitted) the round trip is exact: `deserialize (serialize r)`
succeeds and returns `r` itself, every field preserved, so a second
serialization is byte-identical. Outside this domain the property fails,
as `c1_roundtrip_counterexample` shows. -/
theorem c1_roundtrip_amended (r : Email) (hg : goodEmail r = true) :
    deserialize (serialize r) = ⟨r, true, none⟩ ∧
    (deserialize (serialize r)).email = r ∧
    serialize (deserialize (serialize r)).email = serialize r := by
  have h := roundtrip_good r hg
  exact ⟨h, by rw [h], by rw [h]⟩

/-- Witness: the amended round trip at a concrete well-behaved record. -/
theorem c1_roundtrip_amended_witness :
    goodEmail cexGoodEmail = true ∧
    deserialize (serialize cexGoodEmail) = ⟨cexGoodEmail, true, none⟩ :=
  ⟨by decide, (c1_roundtrip_amended cexGoodEmail (by decide)).1⟩

/-- Claim C2, counterexample: the orchestrator does not diff by
fingerprint and keeps no noop tally. A local record whose fingerprint
matches its remote counterpart (only the non-fingerprinted `subject`
differs) is still submitted — exactly one PATCH is issued for it — and the
emails tally is `updated/created/deleted/failed` with the record counted
as updated; no `{updates, creations, noops, deletions}` result with
`noops = 1` exists. -/
theorem c2_push_diff_counterexample :
    emailHash cexLocalEmail = emailHash cexRemoteEmail ∧
    (performPush cexDiffEnv).emailCalls =
      [.patch (some (.s "e1".data)) cexLocalEmail] ∧
    (performPush cexDiffEnv).stats = [("emails", ⟨1, 0, 0, 0⟩)] := by
  refine ⟨by decide, by decide, by decide⟩

/-- Claim C2, amended: on a push run whose image phase succeeds, the
records submitted to `remote.set` are exactly the image-resolved local
records that have no truthy id, no remote counterpart by id, or a
serialized form different from their counterpart's; a record serialize-
equal to its counterpart is never submitted and gets no call; and when the
submitted list is empty the emails tally is
`(updated, created, deleted, failed) = (0, 0, 0, 0)` — there is no noop
counter. -/
theorem c2_push_diff_amended :
    ∀ (env : PushEnv) (emails : List Email) (imgs : Images) (log : List Str),
      env.localEmails = some emails →
      uploadOverEmails env.uploader env.resolve env.emailsDir emails
        env.syncedImages0 [] = (.ok imgs, log) →
      (performPush env).emailCalls =
        (REMOTE_EMAILS_RESOURCE_set (diffEmails env.remoteEmails
          (resolvedEmailsOf env.resolve env.emailsDir (pushImageMap imgs) emails))).1 ∧
      (performPush env).stats =
        ("emails", (REMOTE_EMAILS_RESOURCE_set (diffEmails env.remoteEmails
          (resolvedEmailsOf env.resolve env.emailsDir (pushImageMap imgs) emails))).2) ::
          env.baseRuns.filterMap (fun nr => nr.2.map (fun r => (nr.1, r))) ∧
      (∀ e, e ∈ diffEmails env.remoteEmails
          (resolvedEmailsOf env.resolve env.emailsDir (pushImageMap imgs) emails) ↔
        e ∈ resolvedEmailsOf env.resolve env.emailsDir (pushImageMap imgs) emails ∧
          (idTruthy e = false ∨
           jsMapGet (remoteById env.remoteEmails) e.id = none ∨
           ∃ r, jsMapGet (remoteById env.remoteEmails) e.id = some r ∧
             serialize e ≠ serialize r)) ∧
      (∀ e r, idTruthy e = true →
        jsMapGet (remoteById env.remoteEmails) e.id = some r →
        serialize e = serialize r →
        e ∉ diffEmails env.remoteEmails
          (resolvedEmailsOf env.resolve env.emailsDir (pushImageMap imgs) emails)) ∧
      (diffEmails env.remoteEmails
          (resolvedEmailsOf env.resolve env.emailsDir (pushImageMap imgs) emails) = [] →
        (performPush env).emailCalls = [] ∧
        (REMOTE_EMAILS_RESOURCE_set (diffEmails env.remoteEmails
          (resolvedEmailsOf env.resolve env.emailsDir (pushImageMap imgs) emails))).2 =
          ⟨0, 0, 0, 0⟩) := by
  intro env emails imgs log hle hup
  rcases hY : REMOTE_EMAILS_RESOURCE_set (diffEmails env.remoteEmails
      (resolvedEmailsOf env.resolve env.emailsDir (pushImageMap imgs) emails)) with
    ⟨calls, res⟩
  have hout : performPush env =
      ⟨none, ("emails", res) ::
        env.baseRuns.filterMap (fun nr => nr.2.map (fun r => (nr.1, r))),
        calls, log, some imgs⟩ := by
    simp only [performPush, hle, hup, hY]
  refine ⟨by simp only [hout, hY], by simp only [hout, hY],
    fun e => diffEmails_mem _ _ e, ?_, ?_⟩
  · intro e r hid hmap hser hmem
    rcases (diffEmails_mem _ _ e).mp hmem with ⟨_, hc | hc | ⟨r2, hr2, hne⟩⟩
    · rw [hid] at hc; cases hc
    · rw [hmap] at hc; cases hc
    · rw [hmap] at hr2
      cases hr2
      exact hne hser
  · intro hdiff
    rw [hdiff] at hY
    refine ⟨?_, ?_⟩
    · have hcalls : calls = [] := by
        have hY1 := congrArg Prod.fst hY
        simpa using hY1.symm
      simp only [hout, hcalls]
    · have hres := congrArg Prod.snd hY
      simpa [REMOTE_EMAILS_RESOURCE_set] using hres.symm

/-- Claim C2, witness for the amended theorem: the unchanged-record
scenario yields no call and an all-zero emails tally. -/
theorem c2_push_diff_amended_witness :
    (performPush cexNoopEnv).emailCalls = [] ∧
    (performPush cexNoopEnv).stats = [("emails", ⟨0, 0, 0, 0⟩)] := by
  have h := c2_push_diff_amended cexNoopEnv [cexNoopEmail] [] [] rfl (by rfl)
  exact ⟨by rw [h.1]; decide, by rw [h.2.1]; decide⟩

/-- Claim C3, counterexample: changing a field in the fingerprinted
allow-list need not change the hash — the bodies `Aa` and `BB` collide
under the 32-bit rolling hash, so two records differing only in `body`
share a fingerprint. -/
theorem c3_fingerprint_counterexample :
    cexHashA.body ≠ cexHashB.body ∧ cexHashA ≠ cexHashB ∧
    emailHash cexHashA = emailHash cexHashB := by
  refine ⟨by decide, by decide, by decide⟩

/-- Claim C3, amended: the fingerprint is deterministic; it never depends
on the excluded fields (`id`, `subject`, `metadata`, `canonical_url`,
`secondary_id`, `filters`, `commenting_mode`, `related_email_ids`,
`featured`); and changing exactly one field of the fingerprint allow-list
always changes the hashed input string (so the hash changes except for
32-bit collisions, which exist). -/
theorem c3_fingerprint_amended :
    (∀ e : Email, emailHash e = emailHash e) ∧
    (∀ (e : Email) (a b c d p q r t u : Option Val),
      emailHash
        { e with
          id := a, subject := b, metadata := c, canonical_url := d,
          secondary_id := p, filters := q, commenting_mode := r,
          related_email_ids := t, featured := u } = emailHash e) ∧
    (∀ (e₁ e₂ : Email) (pre suf : List Str) (v w : Str),
      fingerprintFields e₁ = pre ++ v :: suf →
      fingerprintFields e₂ = pre ++ w :: suf →
      v ≠ w → hashInput e₁ ≠ hashInput e₂) := by
  refine ⟨fun _ => rfl, fun _ _ _ _ _ _ _ _ _ _ => rfl, ?_⟩
  intro e₁ e₂ pre suf v w h1 h2 hne
  unfold hashInput
  rw [h1, h2]
  exact joinBar_single_change pre suf v w hne

/-- Claim C3, witness for the amended theorem at concrete records. -/
theorem c3_fingerprint_amended_witness :
    hashInput { body := some "x".data } ≠
      hashInput ({ body := some "y".data } : Email) :=
  c3_fingerprint_amended.2.2 { body := some "x".data } { body := some "y".data }
    [] _ "x".data "y".data rfl rfl (by decide)

/-- Claim C5, counterexample: the cited legacy `processRelativeImages`
is not fail-open on the image map. A reference absent from the map whose
file exists on disk is uploaded and rewritten to the returned URL, so the
content changes and an upload is recorded. -/
theorem c5_fail_open_counterexample :
    (processRelativeImages (fun _ p => p) (fun _ => true) cexUploader
      "![a](../m.png)".data "/d".data []).1 = "![a](https://cdn/m.png)".data ∧
    (processRelativeImages (fun _ p => p) (fun _ => true) cexUploader
      "![a](../m.png)".data "/d".data []).1 ≠ "![a](../m.png)".data ∧
    (processRelativeImages (fun _ p => p) (fun _ => true) cexUploader
      "![a](../m.png)".data "/d".data []).2 ≠ [] := by
  refine ⟨by decide, by decide, by decide⟩

/-- Claim C5, amended: fail-open on the image map holds where the code
consults only the map. In the absolute-to-relative direction, content none
of whose absolute image URLs has a map entry is returned byte-identical;
the push-path resolver (modelled from the spec, consistently with its
tests) substitutes only references with a matching map entry and returns
content with no matching reference unchanged. The legacy
`processRelativeImages` instead treats the map as an upload cache: it
leaves content untouched and uploads nothing exactly when every
reference's file is missing on disk, or when the map has no matching entry
and the upload throws — while a map-absent reference whose file exists is
uploaded and rewritten (`c5_fail_open_counterexample`). -/
theorem c5_fail_open_amended :
    (∀ (relative : Str → Str → Str) (content emailDir : Str) (syncedImages : Images),
      (∀ au ∈ absRefs content, ∀ img ∈ objValues syncedImages, img.url ≠ au.2) →
      convertAbsoluteToRelativeImages relative content emailDir syncedImages = content) ∧
    (∀ (resolve : Str → Str → Str) (content emailDir : Str)
      (imageMap : List (Str × ImageMapEntry)),
      (∀ ref ∈ findRelativeImageReferences content, ∀ img ∈ imageMap.map Prod.snd,
        img.localPath ≠ resolve emailDir ref.relativePath) →
      resolveRelativeImageReferences resolve content emailDir imageMap = content) ∧
    (∀ (resolve : Str → Str → Str) (pathExists : Str → Bool)
      (uploader : Str → Except Str UploadInfo) (content emailDir : Str)
      (syncedImages : Images),
      (∀ ref ∈ findRelativeImageReferences content,
        pathExists (resolve emailDir ref.relativePath) = false) →
      processRelativeImages resolve pathExists uploader content emailDir syncedImages =
        (content, [])) ∧
    (∀ (resolve : Str → Str → Str) (pathExists : Str → Bool) (err : Str)
      (content emailDir : Str) (syncedImages : Images),
      (∀ img ∈ objValues syncedImages, ∀ ref ∈ findRelativeImageReferences content,
        img.localPath ≠ resolve emailDir ref.relativePath) →
      processRelativeImages resolve pathExists (fun _ => Except.error err) content
        emailDir syncedImages = (content, [])) := by
  refine ⟨?_, ?_, ?_, ?_⟩
  · intro relative content emailDir syncedImages h
    exact convertAbsGo_id relative emailDir syncedImages content.length content h
  · intro resolve content emailDir imageMap h
    unfold resolveRelativeImageReferences
    generalize hrefs : findRelativeImageReferences content = refs at h
    clear hrefs
    induction refs with
    | nil => rfl
    | cons ref rest ih =>
      have hfind : (imageMap.map Prod.snd).find?
          (fun img => img.localPath = resolve emailDir ref.relativePath) = none := by
        refine List.find?_eq_none.mpr (fun img himg => ?_)
        simpa using h ref (by simp) img himg
      simp only [List.foldl_cons, hfind]
      exact ih (fun r hr img himg => h r (by simp [hr]) img himg)
  · intro resolve pathExists uploader content emailDir syncedImages h
    unfold processRelativeImages
    generalize hrefs : findRelativeImageReferences content = refs at h
    clear hrefs
    induction refs with
    | nil => rfl
    | cons ref rest ih =>
      simp only [List.foldl_cons, h ref (by simp)]
      exact ih (fun r hr => h r (by simp [hr]))
  · intro resolve pathExists err content emailDir syncedImages h
    unfold processRelativeImages
    generalize hrefs : findRelativeImageReferences content = refs at h
    clear hrefs
    induction refs with
    | nil => rfl
    | cons ref rest ih =>
      have hfind : (objValues syncedImages).find?
          (fun img => img.localPath = resolve emailDir ref.relativePath) = none := by
        refine List.find?_eq_none.mpr (fun img himg => ?_)
        simpa using h img himg ref (by simp)
      have hih := ih (fun img himg r hr => h img himg r (by simp [hr]))
      by_cases hpe : pathExists (resolve emailDir ref.relativePath) = true
      · simp only [List.foldl_cons, hpe, if_true, hfind]
        exact hih
      · have hpe2 : pathExists (resolve emailDir ref.relativePath) = false := by
          simpa using hpe
        simp only [List.foldl_cons, hpe2]
        exact hih

/-- Claim C5, amended witness: a concrete unresolvable reference in each
map-consulting direction, a missing file, and a throwing upload. -/
theorem c5_fail_open_amended_witness :
    convertAbsoluteToRelativeImages (fun _ p => p) "![a](https://u/x.png)".data
      "/d".data [] = "![a](https://u/x.png)".data ∧
    resolveRelativeImageReferences (fun _ p => p) "![a](../m.png)".data
      "/d".data [] = "![a](../m.png)".data ∧
    processRelativeImages (fun _ p => p) (fun _ => false)
      (fun _ => Except.error "no".data) "![a](../m.png)".data "/d".data [] =
      ("![a](../m.png)".data, []) ∧
    processRelativeImages (fun _ p => p) (fun _ => true)
      (fun _ => Except.error "no".data) "![a](../m.png)".data "/d".data [] =
      ("![a](../m.png)".data, []) :=
  ⟨c5_fail_open_amended.1 (fun _ p => p) "![a](https://u/x.png)".data "/d".data []
      (by decide),
   c5_fail_open_amended.2.1 (fun _ p => p) "![a](../m.png)".data "/d".data [] (by decide),
   c5_fail_open_amended.2.2.1 (fun _ p => p) (fun _ => false)
      (fun _ => Except.error "no".data) "![a](../m.png)".data "/d".data [] (by decide),
   c5_fail_open_amended.2.2.2 (fun _ p => p) (fun _ => true) "no".data
      "![a](../m.png)".data "/d".data [] (by decide)⟩

/-- Claim C6: within one push run, at most one upload request is issued per
distinct resolved local path (the request log is duplicate-free), and a
path already present in the sync state is never uploaded at all. The
hypotheses state that the remote endpoint assigns fresh ids: returned ids
collide neither with the initial state's keys nor across distinct paths. -/
theorem c6_upload_idempotence :
    ∀ env : PushEnv,
      (∀ p r, env.uploader p = .ok r → ∀ kv ∈ env.syncedImages0, kv.1 ≠ r.id) →
      (∀ p q rp rq, env.uploader p = .ok rp → env.uploader q = .ok rq →
        rp.id = rq.id → p = q) →
      (performPush env).uploadCalls.Nodup ∧
      ∀ img ∈ objValues env.syncedImages0,
        img.localPath ∉ (performPush env).uploadCalls := by
  intro env H1 H2
  cases hle : env.localEmails with
  | none =>
    rw [performPush_uploadCalls_none env hle]
    exact ⟨List.nodup_nil, by simp⟩
  | some emails =>
    rw [performPush_uploadCalls_some env emails hle]
    have hinv0 : UploadInv env.uploader env.syncedImages0 env.syncedImages0 [] := by
      refine ⟨List.nodup_nil, by simp, fun img h => h, by simp, ?_⟩
      intro kv hkv
      exact Or.inl ⟨kv, hkv, rfl⟩
    have hmain := uploadOverEmails_inv env.uploader env.resolve env.emailsDir
      env.syncedImages0 H1 H2 emails env.syncedImages0 [] hinv0
    rcases hr : uploadOverEmails env.uploader env.resolve env.emailsDir emails
        env.syncedImages0 [] with ⟨res, log⟩
    cases res with
    | ok imgs =>
      have hI := hmain.1 imgs log hr
      exact ⟨hI.nodup, hI.initial_unlogged⟩
    | error e =>
      have hI := hmain.2 e log hr
      exact ⟨hI.1, hI.2⟩

/-- Claim C6, witness: with two references to a new image and one to an
already-synced image, the request log is duplicate-free and the synced path
is never requested. -/
theorem c6_upload_idempotence_witness :
    (performPush cexIdemEnv).uploadCalls.Nodup ∧
    "s.png".data ∉ (performPush cexIdemEnv).uploadCalls := by
  have h := c6_upload_idempotence cexIdemEnv
    (by
      intro p r hok kv hkv heq
      simp only [cexIdemEnv] at hok hkv
      cases hok
      simp only [List.mem_singleton] at hkv
      subst hkv
      simp at heq)
    (by
      intro p q rp rq hp hq hid
      simp only [cexIdemEnv] at hp hq
      cases hp
      cases hq
      simpa using hid)
  exact ⟨h.1, h.2 ⟨"k1".data, "s.png".data, "u0".data, "s.png".data⟩ (by decide)⟩

/-- Claim C7: `readSyncState` never throws — it is total and always yields
the defaults merged under the parsed document: absent file or failed parse
give the default state, a parsed object's keys survive the merge with the
`syncedImages` key always present, and the file content `"{}"` yields
exactly `{ syncedImages: {} }`. `parse` models the external `JSON.parse`. -/
theorem c7_sync_state_read :
    (∀ parse : Str → Except Str Json, readSyncState parse none = DEFAULT_STATE) ∧
    (∀ (parse : Str → Except Str Json) (content : Str) (msg : Str),
      parse content = .error msg → readSyncState parse (some content) = DEFAULT_STATE) ∧
    (∀ (parse : Str → Except Str Json) (content : Str) (kvs : List (String × Json))
      (k : String) (v : Json), parse content = .ok (.obj kvs) →
      List.lookup k kvs = some v →
      List.lookup k (readSyncState parse (some content)) = some v) ∧
    (∀ (parse : Str → Except Str Json) (file : Option Str),
      (List.lookup "syncedImages" (readSyncState parse file)).isSome = true) ∧
    (∀ parse : Str → Except Str Json, parse "\x7b\x7d".data = .ok (.obj []) →
      readSyncState parse (some "\x7b\x7d".data) = [("syncedImages", .obj [])]) := by
  refine ⟨fun _ => rfl, ?_, ?_, ?_, ?_⟩
  · intro parse content msg h
    simp [readSyncState, h]
  · intro parse content kvs k v hp hk
    simp only [readSyncState, hp, jsonSpreadFields, spreadMerge]
    cases hka : List.lookup k DEFAULT_STATE with
    | some v0 =>
      have h1 : List.lookup k
          (DEFAULT_STATE.map (fun kv => (kv.1, (List.lookup kv.1 kvs).getD kv.2))) =
          some ((List.lookup k kvs).getD v0) := by
        rw [lookup_map_spreadVal, hka]; rfl
      rw [lookup_append_of_some _ _ _ _ h1, hk]
      rfl
    | none =>
      have h1 : List.lookup k
          (DEFAULT_STATE.map (fun kv => (kv.1, (List.lookup kv.1 kvs).getD kv.2))) =
          none := by
        rw [lookup_map_spreadVal, hka]; rfl
      rw [lookup_append_of_none _ _ _ h1,
        lookup_filter_keyed (fun kv => (List.lookup kv.1 DEFAULT_STATE).isNone) k
          (fun _ => by
            show (List.lookup k DEFAULT_STATE).isNone = true
            rw [hka]; rfl) kvs]
      exact hk
  · intro parse file
    cases file with
    | none => rfl
    | some content =>
      cases hp : parse content with
      | error e => simp [readSyncState, hp, DEFAULT_STATE, List.lookup]
      | ok j =>
        simp only [readSyncState, hp, spreadMerge]
        have h1 : List.lookup "syncedImages"
            (DEFAULT_STATE.map (fun kv =>
              (kv.1, (List.lookup kv.1 (jsonSpreadFields j)).getD kv.2))) =
            some ((List.lookup "syncedImages" (jsonSpreadFields j)).getD (.obj [])) := by
          rw [lookup_map_spreadVal]; rfl
        rw [lookup_append_of_some _ _ _ _ h1]
        rfl
  · intro parse hp
    simp [readSyncState, hp, spreadMerge, DEFAULT_STATE, jsonSpreadFields]

/-- Claim C7, witness: a concrete parse function exercising every branch. -/
theorem c7_sync_state_read_witness :
    readSyncState
      (fun s => if s = "\x7b\x7d".data then Except.ok (Json.obj []) else Except.error "bad".data)
      (some "\x7b\x7d".data) = [("syncedImages", Json.obj [])] :=
  c7_sync_state_read.2.2.2.2
    (fun s => if s = "\x7b\x7d".data then Except.ok (Json.obj []) else Except.error "bad".data)
    (by rfl)

/-- Claim C8, counterexample: an extension absent from the table does not
fail the upload — `uploadImage` silently sends `application/octet-stream`
(a post accepting only that content type succeeds), and the legacy
`getMimeType` falls back to the same type. -/
theorem c8_mime_counterexample :
    List.lookup (strToLower (extname "file.txt".data)) EXTENSION_TO_MIME = none ∧
    getMimeType "file.txt".data = "application/octet-stream" ∧
    uploadImage
      (fun req => if req.mimeType = "application/octet-stream"
        then Except.ok ⟨"img-1".data, "https://img".data⟩ else Except.error "wrong".data)
      "file.txt".data =
      Except.ok ⟨"img-1".data, "https://img".data, "file.txt".data⟩ := by
  refine ⟨by decide, by decide, by rfl⟩

/-- Claim C8, amended: the content type comes from the fixed extension
table with `application/octet-stream` as the fallback for unknown
extensions, and the upload fails only when the endpoint's response carries
an error, never because of the extension. -/
theorem c8_mime_amended :
    (∀ (post : UploadRequest → Except Str ImagePostData) (p : Str) (d : ImagePostData),
      List.lookup (strToLower (extname p)) EXTENSION_TO_MIME = none →
      post ⟨"application/octet-stream", basename p⟩ = .ok d →
      uploadImage post p = .ok ⟨d.id, d.image, basename p⟩) ∧
    (∀ (post : UploadRequest → Except Str ImagePostData) (p : Str) (msg : Str),
      uploadImage post p = .error msg →
      ∃ err, post ⟨(List.lookup (strToLower (extname p)) EXTENSION_TO_MIME).getD
        "application/octet-stream", basename p⟩ = .error err) := by
  constructor
  · intro post p d hl hp
    simp only [uploadImage, hl, Option.getD_none, hp]
  · intro post p msg h
    simp only [uploadImage] at h
    cases hp : post ⟨(List.lookup (strToLower (extname p)) EXTENSION_TO_MIME).getD
        "application/octet-stream", basename p⟩ with
    | error err => exact ⟨err, rfl⟩
    | ok d => rw [hp] at h; exact absurd h (by simp)

/-- Claim C8, witness for the amended theorem at a concrete unknown
extension. -/
theorem c8_mime_amended_witness :
    uploadImage (fun _ => Except.ok ⟨"i".data, "u".data⟩) "a.zzz".data =
      Except.ok ⟨"i".data, "u".data, "a.zzz".data⟩ :=
  c8_mime_amended.1 (fun _ => Except.ok ⟨"i".data, "u".data⟩) "a.zzz".data
    ⟨"i".data, "u".data⟩ (by decide) (by rfl)

/-- Claim C4, counterexample: an image upload failure does not stay
contained to one file — the whole push run aborts through the surrounding
catch: the run reports the error, no resource group result is registered
(the base resource with pending data included), no email is submitted, and
the sync state is never written. -/
theorem c4_upload_failure_counterexample :
    (performPush cexUploadEnv).errorMsg = some "Failed to upload image p.png".data ∧
    (performPush cexUploadEnv).stats = [] ∧
    (performPush cexUploadEnv).emailCalls = [] ∧
    (performPush cexUploadEnv).stateWritten = none ∧
    (performPush cexUploadEnv).uploadCalls = ["/d/emails/../m/p.png".data] := by
  refine ⟨rfl, rfl, rfl, rfl, rfl⟩

/-- Claim C4, amended: in `performPush` an image upload failure (the
endpoint answering with an error makes `uploadImage` throw) aborts the
entire run: the error is reported, no record is submitted to any
`remote.set`, no per-resource stats are registered, and the sync state is
not written. Only the upload requests already issued remain observable. (An
unrecognised file extension is not an upload failure; see the MIME claim.
The legacy `processRelativeImages` path, by contrast, keeps a failed
upload's reference unchanged and continues.) -/
theorem c4_upload_failure_amended :
    ∀ (env : PushEnv) (emails : List Email) (e : Str) (log : List Str),
      env.localEmails = some emails →
      uploadOverEmails env.uploader env.resolve env.emailsDir emails
        env.syncedImages0 [] = (.error e, log) →
      performPush env = ⟨some e, [], [], log, none⟩ := by
  intro env emails e log hle hup
  simp only [performPush, hle, hup]

/-- Claim C4, witness for the amended theorem at the concrete failing
environment. -/
theorem c4_upload_failure_amended_witness :
    performPush cexUploadEnv =
      ⟨some "Failed to upload image p.png".data, [], [],
        ["/d/emails/../m/p.png".data], none⟩ :=
  c4_upload_failure_amended cexUploadEnv [cexUploadEmail]
    "Failed to upload image p.png".data ["/d/emails/../m/p.png".data] rfl (by rfl)

/-- Claim C10: the end-of-run sync-state write of a push run emits a
document with exactly one top-level key, `syncedImages`; any other key the
prior file carried (for example `lastSync`) is absent from the written
document, even though `readSyncState` had preserved it in the in-memory
merged state. -/
theorem c10_state_write_narrowing :
    (∀ (parse : Str → Except Str Json) (content : Str) (kvs : List (String × Json))
      (v : Json), parse content = .ok (.obj kvs) →
      List.lookup "lastSync" kvs = some v →
      List.lookup "lastSync" (readSyncState parse (some content)) = some v) ∧
    (∀ (env : PushEnv) (doc : List (String × Json)),
      performPushWrittenFile env = some doc →
      doc.map Prod.fst = ["syncedImages"] ∧ List.lookup "lastSync" doc = none) := by
  constructor
  · intro parse content kvs v hp hk
    simp only [readSyncState, hp, jsonSpreadFields, spreadMerge]
    have h1 : List.lookup "lastSync"
        (DEFAULT_STATE.map (fun kv => (kv.1, (List.lookup kv.1 kvs).getD kv.2))) =
        none := by
      rw [lookup_map_spreadVal]; rfl
    rw [lookup_append_of_none _ _ _ h1,
      lookup_filter_keyed (fun kv => (List.lookup kv.1 DEFAULT_STATE).isNone) "lastSync"
        (fun _ => rfl) kvs]
    exact hk
  · intro env doc hdoc
    simp only [performPushWrittenFile, Option.map_eq_some'] at hdoc
    obtain ⟨st, hst, hw⟩ := hdoc
    subst hw
    exact ⟨rfl, rfl⟩

/-- Claim C10, witness: a prior file carrying `lastSync` keeps it in memory
while the document written by a completed run has only `syncedImages`. -/
theorem c10_state_write_narrowing_witness :
    List.lookup "lastSync"
      (readSyncState (fun _ => Except.ok (Json.obj [("lastSync", Json.null)]))
        (some "x".data)) = some Json.null ∧
    performPushWrittenFile
      { syncedImages0 := [], localEmails := none, remoteEmails := [],
        emailsDir := [], uploader := fun _ => Except.error [],
        resolve := fun _ p => p, baseRuns := [] } = some [("syncedImages", Json.obj [])] ∧
    List.lookup "lastSync" [(("syncedImages" : String), Json.obj [])] = none :=
  ⟨c10_state_write_narrowing.1 (fun _ => Except.ok (Json.obj [("lastSync", Json.null)]))
      "x".data [("lastSync", Json.null)] Json.null rfl rfl,
   rfl,
   (c10_state_write_narrowing.2
      { syncedImages0 := [], localEmails := none, remoteEmails := [],
        emailsDir := [], uploader := fun _ => Except.error [],
        resolve := fun _ p => p, baseRuns := [] } [("syncedImages", Json.obj [])] rfl).2⟩

/-- Claim C9: `remote.set` issues exactly one PATCH per record with a
truthy remote id, counted in the update tally, and exactly one POST per
record without one, counted in the creation tally, for both the emails and
the snippets resources (the deletion/failure tallies stay zero). -/
theorem c9_remote_set :
    (∀ value : List Email,
      (REMOTE_EMAILS_RESOURCE_set value).1 = value.map emailCallFor ∧
      (REMOTE_EMAILS_RESOURCE_set value).2 =
        ⟨(value.filter (fun e => idTruthy e)).length,
         (value.filter (fun e => ¬ idTruthy e)).length, 0, 0⟩) ∧
    (∀ value : List Snippet,
      (REMOTE_SNIPPETS_RESOURCE_set value).1 = value.map snippetCallFor ∧
      (REMOTE_SNIPPETS_RESOURCE_set value).2 =
        ⟨(value.filter (fun s => snippetIdTruthy s)).length,
         (value.filter (fun s => ¬ snippetIdTruthy s)).length, 0, 0⟩) := by
  constructor
  · intro value
    induction value with
    | nil => exact ⟨rfl, rfl⟩
    | cons e rest ih =>
      by_cases h : idTruthy e <;>
        simp [REMOTE_EMAILS_RESOURCE_set, emailCallFor, h, ih.1, ih.2,
          List.filter_cons]
  · intro value
    induction value with
    | nil => exact ⟨rfl, rfl⟩
    | cons s rest ih =>
      by_cases h : snippetIdTruthy s <;>
        simp [REMOTE_SNIPPETS_RESOURCE_set, snippetCallFor, h, ih.1, ih.2,
          List.filter_cons]

end Buttondown
